import Mathlib

/-! Metric declarations of `pkg/metrics/metrics.go`.

The Go package declares seven Prometheus metric vectors in one `var` block.
Each declaration is an options record (`Namespace`, `Name`, `Help`, and for a
histogram `Buckets`) together with the ordered list of label names.  The
declarations are embedded below as records, in declaration order.  Bucket
bounds, written as `float64` literals in the source, are read as exact
rationals, and so are observed values; counter values, gauge values and
histogram sums are kept as 64-bit floats.
-/

namespace Metrics

/-- Which constructor declares the vector: `NewCounterVec`, `NewGaugeVec`,
`NewHistogramVec`. -/
inductive MetricKind where
  | counter
  | gauge
  | histogram
  deriving DecidableEq, Repr

/-- One declaration of the `var` block: the fields of its `*Opts` literal (a
field the literal leaves out has Go's zero value) and its label-name list. -/
structure MetricFamily where
  kind : MetricKind
  Namespace : String
  Subsystem : String := ""
  Name : String
  Help : String
  Buckets : List ℚ := []
  labels : List String
  deriving DecidableEq

/-- Modelled from the spec: the library constant `prometheus.DefBuckets`, which
`RequestDuration` passes as its `Buckets`, is not part of this repository; its
value is the library's default list of bounds. -/
def DefBuckets : List ℚ :=
  [5 / 1000, 1 / 100, 25 / 1000, 5 / 100, 1 / 10, 25 / 100, 5 / 10, 1, 25 / 10, 5, 10]

/-- SVIDExpirationSeconds tracks the time remaining until SVID expires. -/
def SVIDExpirationSeconds : MetricFamily :=
  { kind := .gauge
    Namespace := "spiffe_demo"
    Name := "svid_expiration_seconds"
    Help := "Seconds until SVID expires"
    labels := ["service", "spiffe_id"] }

/-- SVIDRotations counts the number of SVID rotations. -/
def SVIDRotations : MetricFamily :=
  { kind := .counter
    Namespace := "spiffe_demo"
    Name := "svid_rotations_total"
    Help := "Total number of SVID rotations"
    labels := ["service", "spiffe_id"] }

/-- RequestDuration tracks HTTP request latency. -/
def RequestDuration : MetricFamily :=
  { kind := .histogram
    Namespace := "spiffe_demo"
    Name := "http_request_duration_seconds"
    Help := "HTTP request duration in seconds"
    Buckets := DefBuckets
    labels := ["service", "method", "path", "status"] }

/-- RequestsTotal counts total HTTP requests. -/
def RequestsTotal : MetricFamily :=
  { kind := .counter
    Namespace := "spiffe_demo"
    Name := "http_requests_total"
    Help := "Total number of HTTP requests"
    labels := ["service", "method", "path", "status"] }

/-- AuthorizationDecisions counts OPA authorization decisions. -/
def AuthorizationDecisions : MetricFamily :=
  { kind := .counter
    Namespace := "spiffe_demo"
    Name := "authorization_decisions_total"
    Help := "Total number of OPA authorization decisions"
    labels := ["service", "decision", "caller_type"] }

/-- AuthorizationDuration tracks OPA policy evaluation latency. -/
def AuthorizationDuration : MetricFamily :=
  { kind := .histogram
    Namespace := "spiffe_demo"
    Name := "authorization_duration_seconds"
    Help := "OPA authorization evaluation duration in seconds"
    Buckets := [1 / 1000, 5 / 1000, 1 / 100, 25 / 1000, 5 / 100, 1 / 10, 25 / 100, 5 / 10, 1]
    labels := ["service"] }

/-- DelegationsTotal counts delegation attempts. -/
def DelegationsTotal : MetricFamily :=
  { kind := .counter
    Namespace := "spiffe_demo"
    Name := "delegations_total"
    Help := "Total number of delegation attempts"
    labels := ["user", "agent", "result"] }

/-- The whole `var` block, in declaration order. -/
def declared : List MetricFamily :=
  [SVIDExpirationSeconds, SVIDRotations, RequestDuration, RequestsTotal,
   AuthorizationDecisions, AuthorizationDuration, DelegationsTotal]

/-- Modelled from the spec: the library helper that builds a fully-qualified
metric name is not under src/.  The non-empty parts among namespace, subsystem
and name are joined by an underscore; the result is empty when the name is
empty. -/
def MetricFamily.fullName (f : MetricFamily) : String :=
  if f.Name = "" then ""
  else
    (if f.Namespace = "" then "" else f.Namespace ++ "_") ++
    (if f.Subsystem = "" then "" else f.Subsystem ++ "_") ++ f.Name

/-- How many declarations of the block have the given kind. -/
def countKind (k : MetricKind) (fs : List MetricFamily) : Nat :=
  (fs.filter (fun f => f.kind = k)).length

/-! ## The engine behind the declarations

`promauto.New*Vec` hands every declaration to the wrapped metrics library,
which is not part of this repository.  The definitions of this section and the
next two follow the specification's description of that engine: registry, label
keys, series store, and the three kinds of cell; where the library is more
specific than the specification (float arithmetic, the integer accumulator of a
counter, panics) they follow the library. -/

/-- Failure results of the engine, as the specification names them. -/
inductive MetricsError where
  | DuplicateMetric
  | SchemaMismatch
  | UnknownMetric
  | InvalidDelta
  deriving DecidableEq, Repr

/-- Outcome of an operation that can fail: a value or a failure result. -/
inductive Outcome (α : Type) where
  | ok (a : α)
  | fail (e : MetricsError)
  deriving DecidableEq, Repr

/-- Registry: the registered families in registration order. -/
abbrev Registry := List MetricFamily

/-- Modelled from the spec: `register(family)` of the Registry (library code,
not under src/).  The name must be non-empty and unique within the registry,
otherwise the call fails with `DuplicateMetric`; on success the family is
appended, so registration order is kept. -/
def register (r : Registry) (f : MetricFamily) : Outcome Registry :=
  if f.fullName = "" ∨ f.fullName ∈ r.map MetricFamily.fullName then
    .fail .DuplicateMetric
  else .ok (r ++ [f])

/-- Registers the families one after another, stopping at the first failure:
what package initialisation does with the `var` block. -/
def registerAll (r : Registry) : List MetricFamily → Outcome Registry
  | [] => .ok r
  | f :: fs =>
    match register r f with
    | .fail e => .fail e
    | .ok r1 => registerAll r1 fs

/-- A label name the exposition format keeps for itself: one starting with two
underscores. -/
def reservedLabel (l : String) : Bool := "__".data.isPrefixOf l.data

/-- Modelled from the spec: the check a declaration's label schema has to pass
when the library builds its descriptor (library code, not under src/; the
specification leaves it implicit): label names non-empty, pairwise distinct,
none reserved, and a histogram has no label named `le`, which the exposition
format uses on bucket lines. -/
def wellFormedSchema (f : MetricFamily) : Bool :=
  f.labels.all (fun l => decide (l ≠ "") && !reservedLabel l) &&
  decide f.labels.Nodup &&
  (decide (f.kind ≠ .histogram) || decide ("le" ∉ f.labels))

/-- Modelled from the spec: registration as package initialisation performs it
(library code, not under src/): the descriptor check first, then `register`.
The result `none` stands for the rejection of an ill-formed declaration. -/
def mustRegister (r : Registry) (f : MetricFamily) : Option (Outcome Registry) :=
  if wellFormedSchema f then some (register r f) else none

/-- Package initialisation: every declaration of the block goes through
`mustRegister` in order; the first rejection or failure ends it. -/
def initPackage (r : Registry) : List MetricFamily → Option (Outcome Registry)
  | [] => some (.ok r)
  | f :: fs =>
    match mustRegister r f with
    | some (.ok r1) => initPackage r1 fs
    | other => other

/-- Canonical identity of a series: label names paired with label values, in
schema order. -/
abbrev SeriesKey := List (String × String)

/-- Modelled from the spec: LabelKey construction (library code, not under
src/).  Fails with `SchemaMismatch` if the tuple length differs from the schema
length. -/
def labelKey (schema values : List String) : Outcome SeriesKey :=
  if values.length = schema.length then .ok (schema.zip values)
  else .fail .SchemaMismatch

/-- Series store of one family: series in order of first observation. -/
abbrev SeriesStore (α : Type) := List (SeriesKey × α)

/-- Looks a series up by its key. -/
def findSeries {α : Type} : SeriesStore α → SeriesKey → Option α
  | [], _ => none
  | (k, c) :: rest, key => if k = key then some c else findSeries rest key

/-- Current cell of a series; a series not yet created reads as the zero
cell it would be created with. -/
def cellAt {α : Type} (zero : α) (store : SeriesStore α) (key : SeriesKey) : α :=
  (findSeries store key).getD zero

/-- Modelled from the spec: `getOrCreate` of the Series Store (library code, not
under src/): on a miss a zero-valued cell is inserted, after the existing
series. -/
def getOrCreate {α : Type} (zero : α) (store : SeriesStore α) (key : SeriesKey) :
    SeriesStore α × α :=
  match findSeries store key with
  | some cell => (store, cell)
  | none => (store ++ [(key, zero)], zero)

/-- Writes a new cell value for the series with the given key. -/
def storeCell {α : Type} (store : SeriesStore α) (key : SeriesKey) (cell : α) :
    SeriesStore α :=
  store.map (fun p => if p.1 = key then (p.1, cell) else p)

/-! ## 64-bit floats

Counter values, gauge values and histogram sums are `float64` in the wrapped
library.  A float is modelled by its value: a rational, or one of the three
special values.  Arithmetic results are rounded to the nearest representable
value, ties to the even mantissa. -/

/-- Nearest integer, a tie going to the even one. -/
def roundHalfEven (x : ℚ) : ℤ :=
  if x - ⌊x⌋ < 1 / 2 then ⌊x⌋
  else if 1 / 2 < x - ⌊x⌋ then ⌊x⌋ + 1
  else if ⌊x⌋ % 2 = 0 then ⌊x⌋ else ⌊x⌋ + 1

/-- Exponent of the last mantissa bit of the float64 nearest to `x`: 53
significant bits, and never below the subnormal exponent -1074. -/
def ulpExp (x : ℚ) : ℤ := max (Int.log 2 |x| - 52) (-1074)

/-- Rounding to the float64 grid, before the overflow check. -/
def roundFin (x : ℚ) : ℚ := (roundHalfEven (x / 2 ^ ulpExp x) : ℚ) * 2 ^ ulpExp x

/-- Value of a `float64`. -/
inductive F64 where
  | nan
  | posInf
  | negInf
  | fin (q : ℚ)
  deriving DecidableEq

/-- Conversion of an exact value to `float64`: round to nearest, ties to even;
a result of magnitude 2^1024 or more overflows to an infinity. -/
def round64 (x : ℚ) : F64 :=
  if 2 ^ 1024 ≤ roundFin x then .posInf
  else if roundFin x ≤ -2 ^ 1024 then .negInf
  else .fin (roundFin x)

/-- Addition of two `float64` values. -/
def F64.add : F64 → F64 → F64
  | .nan, _ => .nan
  | _, .nan => .nan
  | .posInf, .negInf => .nan
  | .negInf, .posInf => .nan
  | .posInf, _ => .posInf
  | _, .posInf => .posInf
  | .negInf, _ => .negInf
  | _, .negInf => .negInf
  | .fin a, .fin b => round64 (a + b)

/-- Comparison `x < y` of two `float64` values; false when either is NaN. -/
def F64.lt : F64 → F64 → Bool
  | .nan, _ => false
  | _, .nan => false
  | .posInf, _ => false
  | .negInf, .negInf => false
  | .negInf, _ => true
  | .fin _, .posInf => true
  | .fin _, .negInf => false
  | .fin a, .fin b => decide (a < b)

/-- Comparison `x ≤ y` of two `float64` values; false when either is NaN. -/
def F64.le : F64 → F64 → Bool
  | .nan, _ => false
  | _, .nan => false
  | _, .posInf => true
  | .posInf, _ => false
  | .negInf, _ => true
  | .fin _, .negInf => false
  | .fin a, .fin b => decide (a ≤ b)

/-! ## Updates -/

/-- The two ways the library hands out the series for a tuple of label values:
`GetMetricWithLabelValues` returns an error to the caller, `WithLabelValues`
panics on the same error. -/
inductive Accessor where
  | GetMetricWithLabelValues
  | WithLabelValues
  deriving DecidableEq

/-- What a caller sees of an update: it went through, it came back with an
error value, or it panicked. -/
inductive CallResult where
  | accepted
  | returned (e : MetricsError)
  | aborted (e : MetricsError)
  deriving DecidableEq

/-- How an accessor signals a failed label check. -/
def Accessor.signal : Accessor → MetricsError → CallResult
  | .GetMetricWithLabelValues, e => .returned e
  | .WithLabelValues, e => .aborted e

/-- Modelled from the spec: an update operation of a Metric Family (library
code, not under src/): validates the label values against the schema, obtains
the series with `getOrCreate`, then applies the kind's cell update.  A failed
label check leaves the store alone and is signalled the accessor's way; a
failed cell update panics after the series has been obtained.  Returns the
store after the call and what the caller sees. -/
def updateSeries {α : Type} (acc : Accessor) (zero : α) (step : α → Outcome α)
    (schema : List String) (store : SeriesStore α) (values : List String) :
    SeriesStore α × CallResult :=
  match labelKey schema values with
  | .fail e => (store, acc.signal e)
  | .ok key =>
    match step (getOrCreate zero store key).2 with
    | .fail e => ((getOrCreate zero store key).1, .aborted e)
    | .ok cell => (storeCell (getOrCreate zero store key).1 key cell, .accepted)

/-- Counter cell of the library: a float accumulator and a 64-bit unsigned
integer accumulator. -/
structure CounterCell where
  valBits : F64
  valInt : Nat
  deriving DecidableEq

/-- Counter cell of a new series. -/
def zeroCounter : CounterCell := { valBits := .fin 0, valInt := 0 }

/-- The unsigned integer a delta converts to, when converting it back gives the
delta again; only then does the delta go to the integer accumulator.  A delta
outside the range of a 64-bit unsigned integer never does. -/
def wholePart : F64 → Option Nat
  | .fin q =>
    if 0 ≤ q ∧ q < 2 ^ 64 ∧ round64 ((⌊q⌋.toNat : ℕ) : ℚ) = .fin q then some ⌊q⌋.toNat
    else none
  | _ => none

/-- Modelled from the spec: `increment(handle, delta)` on a counter cell (library
code, not under src/): fails with `InvalidDelta` if delta < 0; otherwise adds
delta, a whole-number delta to the integer accumulator, which wraps at 2^64,
any other to the float accumulator. -/
def incrementCell (delta : F64) (c : CounterCell) : Outcome CounterCell :=
  if delta.lt (.fin 0) then .fail .InvalidDelta
  else
    match wholePart delta with
    | some n => .ok { c with valInt := (c.valInt + n) % 2 ^ 64 }
    | none => .ok { c with valBits := c.valBits.add delta }

/-- Value a counter cell reports: the float accumulator plus the integer
accumulator converted to float. -/
def CounterCell.value (c : CounterCell) : F64 :=
  c.valBits.add (round64 (c.valInt : ℚ))

/-- Modelled from the spec: `set(handle, value)` on a gauge cell: replaces the
current value. -/
def setCell (value : F64) (_old : F64) : Outcome F64 := .ok value

/-- Upper bound of a histogram bucket: a declared finite bound or the
sentinel. -/
inductive UpperBound where
  | finite (b : ℚ)
  | posInf
  deriving DecidableEq

/-- Whether a bucket with this upper bound counts the observed value. -/
def UpperBound.covers : UpperBound → ℚ → Bool
  | .finite b, v => decide (v ≤ b)
  | .posInf, _ => true

/-- Histogram cell: cumulative count per bucket, running sum, total count. -/
structure HistogramCell where
  buckets : List (UpperBound × Nat)
  sum : F64
  count : Nat
  deriving DecidableEq

/-- Bucket bounds of a histogram with the given declared bounds: the declared
ones in order, then the sentinel. -/
def bucketBounds (bounds : List ℚ) : List UpperBound :=
  bounds.map .finite ++ [.posInf]

/-- Zero-valued histogram cell for the declared bounds. -/
def zeroCell (bounds : List ℚ) : HistogramCell :=
  { buckets := (bucketBounds bounds).map (fun b => (b, 0)), sum := .fin 0, count := 0 }

/-- Modelled from the spec: `observe(handle, value)` on a histogram cell: each
bucket whose upper bound is at least the value, the sentinel included, has its
cumulative count incremented; the float sum grows by the value as a float, the
total count by one.  The observed value is given by the number it denotes. -/
def observeCell (c : HistogramCell) (v : ℚ) : HistogramCell :=
  { buckets := c.buckets.map (fun p => if p.1.covers v then (p.1, p.2 + 1) else p)
    sum := c.sum.add (round64 v)
    count := c.count + 1 }

/-- A run of observations on one cell. -/
def observeAll (c : HistogramCell) (vs : List ℚ) : HistogramCell :=
  vs.foldl observeCell c

/-- The float sum a run of observations leaves in a cell that starts at 0:
each value converted to float and added in observation order. -/
def floatSum (vs : List ℚ) : F64 :=
  vs.foldl (fun s v => s.add (round64 v)) (.fin 0)

/-- Count of the bucket with the given upper bound. -/
def bucketCount (c : HistogramCell) (b : UpperBound) : Option Nat :=
  (c.buckets.find? (fun p => p.1 = b)).map Prod.snd

/-- Counter increment on a family: accessor, label values in schema order, then
delta. -/
def increment (acc : Accessor) (f : MetricFamily) (store : SeriesStore CounterCell)
    (values : List String) (delta : F64) : SeriesStore CounterCell × CallResult :=
  updateSeries acc zeroCounter (incrementCell delta) f.labels store values

/-- Gauge set on a family. -/
def setGauge (acc : Accessor) (f : MetricFamily) (store : SeriesStore F64)
    (values : List String) (value : F64) : SeriesStore F64 × CallResult :=
  updateSeries acc (.fin 0) (setCell value) f.labels store values

/-- Histogram observe on a family. -/
def observe (acc : Accessor) (f : MetricFamily) (store : SeriesStore HistogramCell)
    (values : List String) (v : ℚ) : SeriesStore HistogramCell × CallResult :=
  updateSeries acc (zeroCell f.Buckets) (fun c => .ok (observeCell c v)) f.labels store
    values

/-- Value a counter series reports; a series not yet created reads as a new
one. -/
def counterValue (store : SeriesStore CounterCell) (key : SeriesKey) : F64 :=
  (cellAt zeroCounter store key).value

/-- A sequence of increment calls on one family, each with its own label
values and delta; a failed call is dropped and the next one proceeds. -/
def incrementCalls (acc : Accessor) (f : MetricFamily) (store : SeriesStore CounterCell)
    (calls : List (List String × F64)) : SeriesStore CounterCell :=
  calls.foldl (fun s call => (increment acc f s call.1 call.2).1) store

/-- What a sequence of increment calls adds to the integer accumulators. -/
def wholeTotal (calls : List (List String × F64)) : Nat :=
  (calls.map (fun call => (wholePart call.2).getD 0)).sum

/-- Whole part of a delta that is at least zero; zero for any other delta. -/
def wholeAmount : F64 → Nat
  | .fin q => if 0 ≤ q then ⌊q⌋.toNat else 0
  | _ => 0

/-- Total of the whole parts of the deltas of a sequence of increment calls. -/
def floorTotal (calls : List (List String × F64)) : Nat :=
  (calls.map (fun call => wholeAmount call.2)).sum

/-- A sequence of observations on one series of a family. -/
def observeCalls (acc : Accessor) (f : MetricFamily) (store : SeriesStore HistogramCell)
    (values : List String) (vs : List ℚ) : SeriesStore HistogramCell :=
  vs.foldl (fun s v => (observe acc f s values v).1) store

/-- A float that is neither NaN nor below zero. -/
def F64.NonNeg (x : F64) : Prop := x = .posInf ∨ ∃ a, x = .fin a ∧ 0 ≤ a

/-- A non-negative float that is a value of the float64 grid: positive
infinity, or a finite value that converts to itself. -/
def F64.Settled (x : F64) : Prop :=
  x = .posInf ∨ ∃ a, x = .fin a ∧ 0 ≤ a ∧ round64 a = .fin a

/-- A run of increments on one counter cell; a rejected delta leaves the cell
as it is. -/
def applyDeltas (c : CounterCell) (deltas : List F64) : CounterCell :=
  deltas.foldl
    (fun c d =>
      match incrementCell d c with
      | .ok c1 => c1
      | .fail _ => c)
    c

/-- Error bound of the float sum of `n` observed values whose absolute values
add up to `total`: two roundings per value, each of relative error 2^-53, 2^-1075
absolute where the result is subnormal. -/
def sumTolerance (n : Nat) (total : ℚ) : ℚ :=
  ((1 + 2 ^ (-53 : ℤ)) ^ (2 * n) - 1) * (total + n * 2 ^ (-1022 : ℤ))

/-! ## The declared set -/

/-- C1: the block declares exactly seven families, in this order and with these
kinds and full names: one gauge, four counters, two histograms; every full name
is the namespace `spiffe_demo` joined by an underscore to the declared name. -/
theorem declared_kinds_and_names :
    declared.length = 7 ∧
    declared.map (fun f => (f.kind, f.fullName)) =
      [(.gauge, "spiffe_demo_svid_expiration_seconds"),
       (.counter, "spiffe_demo_svid_rotations_total"),
       (.histogram, "spiffe_demo_http_request_duration_seconds"),
       (.counter, "spiffe_demo_http_requests_total"),
       (.counter, "spiffe_demo_authorization_decisions_total"),
       (.histogram, "spiffe_demo_authorization_duration_seconds"),
       (.counter, "spiffe_demo_delegations_total")] ∧
    countKind .gauge declared = 1 ∧
    countKind .counter declared = 4 ∧
    countKind .histogram declared = 2 ∧
    (∀ f ∈ declared, f.Namespace = "spiffe_demo" ∧
      f.fullName = f.Namespace ++ "_" ++ f.Name) := by
  decide

/-- C2, as stated: the label schemas are not the sequences the specification
lists; the credential families do not carry a label named `identity`, nor the
authorization-decision family one named `caller-type`. -/
theorem label_schemas_not_as_listed :
    ¬ (declared.map (fun f => f.labels) =
      [["service", "identity"], ["service", "identity"],
       ["service", "method", "path", "status"], ["service", "method", "path", "status"],
       ["service", "decision", "caller-type"], ["service"],
       ["user", "agent", "result"]]) := by
  decide

/-- C2, amended: the label schemas, in declaration order, are
(service, spiffe_id) twice, (service, method, path, status) twice,
(service, decision, caller_type), (service) and (user, agent, result); the two
credential families share one schema and the two request families share one
schema, order included. -/
theorem label_schemas :
    declared.map (fun f => f.labels) =
      [["service", "spiffe_id"], ["service", "spiffe_id"],
       ["service", "method", "path", "status"], ["service", "method", "path", "status"],
       ["service", "decision", "caller_type"], ["service"],
       ["user", "agent", "result"]] ∧
    SVIDExpirationSeconds.labels = SVIDRotations.labels ∧
    RequestDuration.labels = RequestsTotal.labels := by
  decide

/-- C3: the authorization-duration histogram declares the bounds 0.001, 0.005,
0.01, 0.025, 0.05, 0.1, 0.25, 0.5, 1.0; the smallest is 0.001, the largest is
1.0, and every bound lies between the two. -/
theorem authorization_duration_buckets :
    AuthorizationDuration.Buckets =
      [1 / 1000, 5 / 1000, 1 / 100, 25 / 1000, 5 / 100, 1 / 10, 25 / 100, 5 / 10, 1] ∧
    AuthorizationDuration.Buckets.head? = some (1 / 1000) ∧
    AuthorizationDuration.Buckets.getLast? = some 1 ∧
    (1 / 1000 : ℚ) ∈ AuthorizationDuration.Buckets ∧
    (1 : ℚ) ∈ AuthorizationDuration.Buckets ∧
    (∀ b ∈ AuthorizationDuration.Buckets, (1 / 1000 : ℚ) ≤ b ∧ b ≤ 1) := by
  refine ⟨rfl, rfl, rfl, ?_, ?_, ?_⟩
  · simp [AuthorizationDuration]
  · simp [AuthorizationDuration]
  · intro b hb
    simp only [AuthorizationDuration, List.mem_cons, List.mem_singleton, List.not_mem_nil,
      or_false] at hb
    rcases hb with h | h | h | h | h | h | h | h | h <;> subst h <;> norm_num

/-! ## Registration -/

/-- A family already in the registry cannot be registered again. -/
theorem register_present (r : Registry) (f : MetricFamily) (h : f ∈ r) :
    register r f = .fail .DuplicateMetric := by
  unfold register
  rw [if_pos]
  exact Or.inr (List.mem_map_of_mem _ h)

/-- C4: every declared family has a non-empty name and the seven full names are
pairwise distinct; registering the declarations in order into an empty registry
succeeds after every number of steps; any registry that holds one of them
refuses it a second time with `DuplicateMetric`. -/
theorem registration_succeeds_once :
    (∀ f ∈ declared, f.Name ≠ "" ∧ f.fullName ≠ "") ∧
    (declared.map MetricFamily.fullName).Nodup ∧
    (∀ n : Nat, registerAll [] (declared.take n) = .ok (declared.take n)) ∧
    (∀ f ∈ declared, register declared f = .fail .DuplicateMetric) ∧
    (∀ f ∈ declared, ∀ r : Registry, f ∈ r → register r f = .fail .DuplicateMetric) := by
  refine ⟨by decide, by decide, ?_, by decide, fun f _ r h => register_present r f h⟩
  intro n
  have hsmall : ∀ k, k < 8 → registerAll [] (declared.take k) = .ok (declared.take k) := by
    intro k hk
    interval_cases k <;> rfl
  rcases Nat.lt_or_ge n 8 with h | h
  · exact hsmall n h
  · have hlen : declared.length ≤ n := le_trans (by decide) h
    rw [List.take_of_length_le hlen]
    exact hsmall 7 (by decide)

/-! ## Bucket bounds -/

/-- The bounds of a declared histogram family are non-empty and strictly
ascending. -/
theorem declared_buckets_sorted (f : MetricFamily) (hf : f ∈ declared)
    (hk : f.kind = .histogram) : f.Buckets ≠ [] ∧ f.Buckets.Sorted (· < ·) := by
  simp only [declared, List.mem_cons, List.mem_singleton, List.not_mem_nil, or_false] at hf
  rcases hf with h | h | h | h | h | h | h <;> subst h <;>
    first
      | exact absurd hk (by decide)
      | (refine ⟨by simp [RequestDuration, AuthorizationDuration, DefBuckets], ?_⟩
         simp only [RequestDuration, AuthorizationDuration, DefBuckets, List.Sorted,
           List.pairwise_cons, List.mem_cons, List.mem_singleton, List.not_mem_nil,
           List.Pairwise.nil, forall_eq_or_imp, forall_eq]
         norm_num)

/-- C5: each declared histogram family (request duration with the library's
default bounds, authorization duration with its own list) has a non-empty,
strictly ascending list of finite bounds; the sentinel is not among the
declared bounds and is supplied once, after them. -/
theorem histogram_bounds_ascending (f : MetricFamily) (hf : f ∈ declared)
    (hk : f.kind = .histogram) :
    f.Buckets ≠ [] ∧
    f.Buckets.Sorted (· < ·) ∧
    UpperBound.posInf ∉ f.Buckets.map UpperBound.finite ∧
    (bucketBounds f.Buckets).dropLast = f.Buckets.map UpperBound.finite ∧
    (bucketBounds f.Buckets).getLast? = some UpperBound.posInf :=
  ⟨(declared_buckets_sorted f hf hk).1, (declared_buckets_sorted f hf hk).2, by simp,
    by simp [bucketBounds], by simp [bucketBounds]⟩

/-- C5 at the request-duration histogram, whose bounds are the default list
0.005, 0.01, 0.025, 0.05, 0.1, 0.25, 0.5, 1, 2.5, 5, 10. -/
theorem histogram_bounds_ascending_witness :
    declared.filter (fun f => f.kind = .histogram) =
      [RequestDuration, AuthorizationDuration] ∧
    RequestDuration.Buckets =
      [5 / 1000, 1 / 100, 25 / 1000, 5 / 100, 1 / 10, 25 / 100, 5 / 10, 1, 25 / 10, 5, 10] ∧
    (RequestDuration.Buckets ≠ [] ∧
     RequestDuration.Buckets.Sorted (· < ·) ∧
     UpperBound.posInf ∉ RequestDuration.Buckets.map UpperBound.finite ∧
     (bucketBounds RequestDuration.Buckets).dropLast =
       RequestDuration.Buckets.map UpperBound.finite ∧
     (bucketBounds RequestDuration.Buckets).getLast? = some UpperBound.posInf) :=
  ⟨rfl, rfl, histogram_bounds_ascending RequestDuration (by simp [declared]) rfl⟩

/-! ## Label schemas -/

/-- C10: every declared family has a well-formed label schema: label names
non-empty, pairwise distinct, none starting with two underscores, and no
histogram family has a label named `le`; with the names distinct, package
initialisation registers all seven and rejects none. -/
theorem label_schemas_well_formed :
    (∀ f ∈ declared,
      (∀ l ∈ f.labels, l ≠ "" ∧ reservedLabel l = false) ∧
      f.labels.Nodup ∧
      (f.kind = .histogram → "le" ∉ f.labels) ∧
      wellFormedSchema f = true) ∧
    initPackage [] declared = some (.ok declared) :=
  ⟨by decide, rfl⟩

/-! ## Series store -/

theorem findSeries_append {α : Type} (store : SeriesStore α) (key k : SeriesKey) (z : α) :
    findSeries (store ++ [(key, z)]) k =
      match findSeries store k with
      | some c => some c
      | none => if key = k then some z else none := by
  induction store with
  | nil => simp [findSeries]
  | cons p rest ih =>
    obtain ⟨k1, c1⟩ := p
    by_cases h : k1 = k
    · simp [findSeries, h]
    · simp [findSeries, h, ih]

theorem storeCell_cons {α : Type} (k1 : SeriesKey) (c1 : α) (rest : SeriesStore α)
    (key : SeriesKey) (c : α) :
    storeCell ((k1, c1) :: rest) key c =
      (if k1 = key then (k1, c) else (k1, c1)) :: storeCell rest key c := rfl

theorem findSeries_storeCell {α : Type} (store : SeriesStore α) (key k : SeriesKey) (c : α) :
    findSeries (storeCell store key c) k =
      if k = key then (findSeries store key).map (fun _ => c) else findSeries store k := by
  induction store with
  | nil => simp [findSeries, storeCell]
  | cons p rest ih =>
    obtain ⟨k1, c1⟩ := p
    rw [storeCell_cons]
    by_cases h1 : k1 = key
    · rw [if_pos h1]
      simp only [findSeries]
      rw [ih]
      subst h1
      by_cases h2 : k1 = k
      · subst h2; simp
      · have h3 : ¬ k = k1 := fun e => h2 e.symm
        simp [h2, h3]
    · rw [if_neg h1]
      simp only [findSeries]
      rw [ih]
      by_cases h2 : k1 = k
      · subst h2; simp [h1]
      · simp [h1, h2]

/-- The cell `getOrCreate` hands out is the series' current cell. -/
theorem getOrCreate_cell {α : Type} (zero : α) (store : SeriesStore α) (key : SeriesKey) :
    (getOrCreate zero store key).2 = cellAt zero store key := by
  unfold getOrCreate cellAt
  cases h : findSeries store key <;> simp

/-- Creating a series changes no cell as read through `cellAt`. -/
theorem getOrCreate_cellAt {α : Type} (zero : α) (store : SeriesStore α) (key k : SeriesKey) :
    cellAt zero (getOrCreate zero store key).1 k = cellAt zero store k := by
  unfold getOrCreate
  cases h : findSeries store key with
  | some c => rfl
  | none =>
    simp only [cellAt, findSeries_append]
    cases h2 : findSeries store k with
    | some c => rfl
    | none => by_cases h3 : key = k <;> simp [h3]

/-- After `getOrCreate` the series exists. -/
theorem getOrCreate_found {α : Type} (zero : α) (store : SeriesStore α) (key : SeriesKey) :
    findSeries (getOrCreate zero store key).1 key = some (cellAt zero store key) := by
  unfold getOrCreate cellAt
  cases h : findSeries store key with
  | some c => simp [h]
  | none => simp [findSeries_append, h]

/-! ## Rounding -/

theorem roundHalfEven_err (x : ℚ) : |(roundHalfEven x : ℚ) - x| ≤ 1 / 2 := by
  have h1 := Int.floor_le x
  have h2 := Int.lt_floor_add_one x
  unfold roundHalfEven
  split_ifs with a b c
  · rw [abs_le]; constructor <;> linarith
  · rw [abs_le]; push_cast; constructor <;> linarith
  · rw [abs_le]; constructor <;> linarith
  · rw [abs_le]; push_cast; constructor <;> linarith

theorem roundHalfEven_intCast (n : ℤ) : roundHalfEven (n : ℚ) = n := by
  unfold roundHalfEven
  simp

theorem roundHalfEven_mono {x y : ℚ} (h : x ≤ y) : roundHalfEven x ≤ roundHalfEven y := by
  have hf : ⌊x⌋ ≤ ⌊y⌋ := Int.floor_mono h
  have hx1 := Int.floor_le x
  have hx2 := Int.lt_floor_add_one x
  have hy1 := Int.floor_le y
  have hy2 := Int.lt_floor_add_one y
  rcases lt_or_eq_of_le hf with hlt | heq
  · have hxu : roundHalfEven x ≤ ⌊x⌋ + 1 := by
      unfold roundHalfEven; split_ifs <;> omega
    have hyl : ⌊y⌋ ≤ roundHalfEven y := by
      unfold roundHalfEven; split_ifs <;> omega
    omega
  · unfold roundHalfEven
    rw [heq] at *
    have hxy : x - (⌊y⌋ : ℚ) ≤ y - ⌊y⌋ := by linarith
    split_ifs <;> first | omega | (exfalso; linarith)

theorem roundHalfEven_nonneg {x : ℚ} (h : 0 ≤ x) : 0 ≤ roundHalfEven x := by
  have := roundHalfEven_mono h
  rwa [show ((0 : ℚ)) = ((0 : ℤ) : ℚ) by simp, roundHalfEven_intCast] at this

theorem roundHalfEven_of_near {x : ℚ} {m : ℤ} (h : |x - m| < 1 / 2) : roundHalfEven x = m := by
  rw [abs_lt] at h
  have hx1 := Int.floor_le x
  have hx2 := Int.lt_floor_add_one x
  have hfl : ⌊x⌋ = m ∨ ⌊x⌋ = m - 1 := by
    have h1 : m - 1 ≤ ⌊x⌋ := by
      rw [Int.le_floor]; push_cast; linarith
    have h2 : ⌊x⌋ < m + 1 := by
      rw [Int.floor_lt]; push_cast; linarith
    omega
  unfold roundHalfEven
  rcases hfl with e | e
  · rw [e] at hx1 hx2 ⊢
    split_ifs <;> first | rfl | (exfalso; linarith)
  · rw [e] at hx1 hx2 ⊢
    push_cast at hx1 hx2 ⊢
    split_ifs <;> first | omega | (exfalso; linarith)

theorem roundHalfEven_tie {x : ℚ} {m : ℤ} (h : x = m + 1 / 2) :
    roundHalfEven x = if m % 2 = 0 then m else m + 1 := by
  have hfl : ⌊x⌋ = m := by
    rw [Int.floor_eq_iff]; constructor <;> linarith
  unfold roundHalfEven
  rw [hfl]
  have h1 : ¬ (x - (m : ℚ) < 1 / 2) := by linarith
  have h2 : ¬ (1 / 2 < x - (m : ℚ)) := by linarith
  simp only [h1, h2, if_false]

theorem ulpExp_pos (x : ℚ) : (0 : ℚ) < 2 ^ ulpExp x := by positivity

theorem ulpExp_ge (x : ℚ) : -1074 ≤ ulpExp x := le_max_right _ _

theorem ulpExp_of_log {x : ℚ} {L : ℤ} (h1 : (2 : ℚ) ^ L ≤ |x|) (h2 : |x| < (2 : ℚ) ^ (L + 1)) :
    ulpExp x = max (L - 52) (-1074) := by
  have hpos : (0 : ℚ) < |x| := lt_of_lt_of_le (by positivity) h1
  have hL : Int.log 2 |x| = L := by
    apply le_antisymm
    · have := (Int.lt_zpow_iff_log_lt (b := 2) (by norm_num) hpos (x := L + 1)).mp
        (by exact_mod_cast h2)
      omega
    · exact (Int.zpow_le_iff_le_log (b := 2) (by norm_num) hpos).mp (by exact_mod_cast h1)
  unfold ulpExp
  rw [hL]

/-- Evaluation of `roundFin` from the binade of the argument. -/
theorem roundFin_of_log {x : ℚ} {L m : ℤ} (h1 : (2 : ℚ) ^ L ≤ |x|)
    (h2 : |x| < (2 : ℚ) ^ (L + 1))
    (hm : roundHalfEven (x / 2 ^ max (L - 52) (-1074)) = m) :
    roundFin x = m * 2 ^ max (L - 52) (-1074) := by
  unfold roundFin
  rw [ulpExp_of_log h1 h2, hm]

theorem roundFin_zero : roundFin 0 = 0 := by
  unfold roundFin
  simp [roundHalfEven]

theorem ulpExp_le {r : ℚ} {j : ℤ} (hr : r ≠ 0) (h : |r| < (2 : ℚ) ^ (j + 53))
    (hj : -1074 ≤ j) : ulpExp r ≤ j := by
  have hpos : (0 : ℚ) < |r| := abs_pos.mpr hr
  have := (Int.lt_zpow_iff_log_lt (b := 2) (by norm_num) hpos (x := j + 53)).mp
    (by exact_mod_cast h)
  unfold ulpExp
  exact max_le (by omega) hj

/-- A value with an integer mantissa below 2^53 at an exponent in range is its
own rounding. -/
theorem roundFin_exact (m j : ℤ) (hm : |m| < 2 ^ 53) (hj : -1074 ≤ j) :
    roundFin ((m : ℚ) * 2 ^ j) = (m : ℚ) * 2 ^ j := by
  by_cases h0 : m = 0
  · subst h0; simp [roundFin_zero]
  have hr : (m : ℚ) * 2 ^ j ≠ 0 := by
    apply mul_ne_zero
    · exact_mod_cast h0
    · positivity
  have habs : |(m : ℚ) * 2 ^ j| < (2 : ℚ) ^ (j + 53) := by
    rw [abs_mul, abs_of_pos (show (0 : ℚ) < 2 ^ j by positivity), zpow_add₀ (by norm_num), mul_comm]
    apply mul_lt_mul_of_pos_left _ (by positivity)
    have : ((|m| : ℤ) : ℚ) < ((2 ^ 53 : ℤ) : ℚ) := by exact_mod_cast hm
    push_cast at this
    exact lt_of_lt_of_eq this (by norm_num)
  have hk := ulpExp_le hr habs hj
  obtain ⟨d, hd⟩ := Int.le.dest hk
  have key : ∀ k : ℤ, k + d = j →
      (roundHalfEven ((m : ℚ) * 2 ^ j / 2 ^ k) : ℚ) * 2 ^ k = (m : ℚ) * 2 ^ j := by
    intro k hkd
    have hquot : (m : ℚ) * 2 ^ j / 2 ^ k = ((m * 2 ^ d : ℤ) : ℚ) := by
      rw [← hkd, zpow_add₀ (by norm_num), zpow_natCast]
      push_cast
      field_simp
      ring
    rw [hquot, roundHalfEven_intCast, ← hkd, zpow_add₀ (by norm_num : (2 : ℚ) ≠ 0),
      zpow_natCast]
    push_cast
    ring
  exact key _ hd

theorem roundFin_err (x : ℚ) : |roundFin x - x| ≤ 2 ^ ulpExp x / 2 := by
  have hp := ulpExp_pos x
  have h := roundHalfEven_err (x / 2 ^ ulpExp x)
  have e : roundFin x - x =
      ((roundHalfEven (x / 2 ^ ulpExp x) : ℚ) - x / 2 ^ ulpExp x) * 2 ^ ulpExp x := by
    unfold roundFin
    field_simp
  rw [e, abs_mul, abs_of_pos hp]
  calc |(roundHalfEven (x / 2 ^ ulpExp x) : ℚ) - x / 2 ^ ulpExp x| * 2 ^ ulpExp x
      ≤ 1 / 2 * 2 ^ ulpExp x := mul_le_mul_of_nonneg_right h (le_of_lt hp)
    _ = 2 ^ ulpExp x / 2 := by ring

theorem ulp_le (x : ℚ) (hx : x ≠ 0) :
    (2 : ℚ) ^ ulpExp x ≤ 2 ^ (-52 : ℤ) * |x| + 2 ^ (-1074 : ℤ) := by
  have hpos : (0 : ℚ) < |x| := abs_pos.mpr hx
  have hlog : (2 : ℚ) ^ Int.log 2 |x| ≤ |x| := by
    have := Int.zpow_log_le_self (b := 2) (by norm_num) hpos
    exact_mod_cast this
  unfold ulpExp
  rcases max_cases (Int.log 2 |x| - 52) (-1074) with ⟨h, _⟩ | ⟨h, _⟩
  · rw [h, sub_eq_add_neg, zpow_add₀ (by norm_num)]
    have h1 : (2 : ℚ) ^ Int.log 2 |x| * 2 ^ (-52 : ℤ) ≤ |x| * 2 ^ (-52 : ℤ) :=
      mul_le_mul_of_nonneg_right hlog (by positivity)
    have h2 : (0 : ℚ) < 2 ^ (-1074 : ℤ) := by positivity
    linarith
  · rw [h]
    have h2 : (0 : ℚ) ≤ 2 ^ (-52 : ℤ) * |x| := by positivity
    linarith

/-- Rounding error of one conversion: relative 2^-53, plus 2^-1075 absolute
where the result is subnormal. -/
theorem roundFin_tol (x : ℚ) :
    |roundFin x - x| ≤ 2 ^ (-53 : ℤ) * |x| + 2 ^ (-1075 : ℤ) := by
  by_cases hx : x = 0
  · subst hx
    rw [roundFin_zero]
    simp
    positivity
  · have h1 := roundFin_err x
    have h2 := ulp_le x hx
    have e1 : (2 : ℚ) ^ (-53 : ℤ) = 2 ^ (-52 : ℤ) / 2 := by
      rw [show (-52 : ℤ) = -53 + 1 by norm_num, zpow_add₀ (by norm_num)]; norm_num
    have e2 : (2 : ℚ) ^ (-1075 : ℤ) = 2 ^ (-1074 : ℤ) / 2 := by
      rw [show (-1074 : ℤ) = -1075 + 1 by norm_num, zpow_add₀ (by norm_num)]; norm_num
    rw [e1, e2]
    generalize (2 : ℚ) ^ (-52 : ℤ) = a at h2 ⊢
    generalize (2 : ℚ) ^ (-1074 : ℤ) = b at h2 ⊢
    generalize (2 : ℚ) ^ ulpExp x = p at h1 h2
    have : a / 2 * |x| = a * |x| / 2 := by ring
    rw [this]
    linarith

theorem roundFin_nonneg {x : ℚ} (h : 0 ≤ x) : 0 ≤ roundFin x := by
  unfold roundFin
  have hp := ulpExp_pos x
  have : (0 : ℚ) ≤ x / 2 ^ ulpExp x := div_nonneg h (le_of_lt hp)
  have := roundHalfEven_nonneg this
  have : (0 : ℚ) ≤ (roundHalfEven (x / 2 ^ ulpExp x) : ℚ) := by exact_mod_cast this
  positivity

theorem quot_lt (x : ℚ) : |x| / 2 ^ ulpExp x < 2 ^ (53 : ℤ) := by
  have hp := ulpExp_pos x
  rw [div_lt_iff₀ hp, ← zpow_add₀ (by norm_num)]
  have h1 : |x| < (2 : ℚ) ^ (Int.log 2 |x| + 1) := by
    have := Int.lt_zpow_succ_log_self (b := 2) (by norm_num) |x|
    exact_mod_cast this
  refine lt_of_lt_of_le h1 (zpow_le_zpow_right₀ (by norm_num) ?_)
  have : Int.log 2 |x| - 52 ≤ ulpExp x := le_max_left _ _
  omega

theorem mantissa_le {x : ℚ} (h : 0 ≤ x) : roundHalfEven (x / 2 ^ ulpExp x) ≤ 2 ^ 53 := by
  have h1 := quot_lt x
  rw [abs_of_nonneg h] at h1
  have h2 := roundHalfEven_mono (le_of_lt h1)
  have e : ((2 : ℚ) ^ (53 : ℤ)) = ((2 ^ 53 : ℤ) : ℚ) := by norm_num
  rw [e, roundHalfEven_intCast] at h2
  exact h2

theorem mantissa_ge {x : ℚ} (h : 0 < x) (hn : -1074 < ulpExp x) :
    2 ^ 52 ≤ roundHalfEven (x / 2 ^ ulpExp x) := by
  have hp := ulpExp_pos x
  have he : ulpExp x = Int.log 2 |x| - 52 := by
    unfold ulpExp at hn ⊢
    rcases max_cases (Int.log 2 |x| - 52) (-1074) with ⟨h1, _⟩ | ⟨h1, _⟩
    · exact h1
    · rw [h1] at hn; exact absurd hn (lt_irrefl _)
  have hlog : (2 : ℚ) ^ Int.log 2 |x| ≤ |x| := by
    have := Int.zpow_log_le_self (b := 2) (by norm_num) (abs_pos.mpr (ne_of_gt h))
    exact_mod_cast this
  rw [abs_of_pos h] at hlog he
  have h1 : (2 : ℚ) ^ (52 : ℤ) ≤ x / 2 ^ ulpExp x := by
    rw [le_div_iff₀ hp, ← zpow_add₀ (by norm_num), he]
    refine le_trans (le_of_eq ?_) hlog
    congr 1
    omega
  have h2 := roundHalfEven_mono h1
  have e : ((2 : ℚ) ^ (52 : ℤ)) = ((2 ^ 52 : ℤ) : ℚ) := by norm_num
  rw [e, roundHalfEven_intCast] at h2
  exact h2

theorem ulpExp_mono {x y : ℚ} (hx : 0 < x) (h : x ≤ y) : ulpExp x ≤ ulpExp y := by
  have := Int.log_mono_right (b := 2) (abs_pos.mpr (ne_of_gt hx))
    (by rw [abs_of_pos hx, abs_of_pos (lt_of_lt_of_le hx h)]; exact h : |x| ≤ |y|)
  unfold ulpExp
  exact max_le_max (by omega) le_rfl

/-- Rounding keeps the order of non-negative values. -/
theorem roundFin_mono {x y : ℚ} (hx : 0 ≤ x) (h : x ≤ y) : roundFin x ≤ roundFin y := by
  rcases eq_or_lt_of_le hx with h0 | hpos
  · rw [← h0, roundFin_zero]
    exact roundFin_nonneg (le_trans hx h)
  have hypos : 0 < y := lt_of_lt_of_le hpos h
  have he := ulpExp_mono hpos h
  rcases eq_or_lt_of_le he with heq | hlt
  · unfold roundFin
    rw [heq]
    have hp := ulpExp_pos y
    have : x / 2 ^ ulpExp y ≤ y / 2 ^ ulpExp y := div_le_div_of_nonneg_right h (le_of_lt hp)
    have := roundHalfEven_mono this
    have : (roundHalfEven (x / 2 ^ ulpExp y) : ℚ) ≤ roundHalfEven (y / 2 ^ ulpExp y) := by
      exact_mod_cast this
    exact mul_le_mul_of_nonneg_right this (le_of_lt hp)
  · have h1 : (roundHalfEven (x / 2 ^ ulpExp x) : ℚ) ≤ 2 ^ (53 : ℤ) := by
      have := mantissa_le hx
      have : ((roundHalfEven (x / 2 ^ ulpExp x) : ℤ) : ℚ) ≤ ((2 ^ 53 : ℤ) : ℚ) := by
        exact_mod_cast this
      exact le_trans this (by norm_num)
    have h2 : (2 : ℚ) ^ (52 : ℤ) ≤ (roundHalfEven (y / 2 ^ ulpExp y) : ℚ) := by
      have := mantissa_ge hypos (lt_of_le_of_lt (ulpExp_ge x) hlt)
      have : ((2 ^ 52 : ℤ) : ℚ) ≤ ((roundHalfEven (y / 2 ^ ulpExp y) : ℤ) : ℚ) := by
        exact_mod_cast this
      exact le_trans (by norm_num) this
    unfold roundFin
    calc (roundHalfEven (x / 2 ^ ulpExp x) : ℚ) * 2 ^ ulpExp x
        ≤ 2 ^ (53 : ℤ) * 2 ^ ulpExp x :=
          mul_le_mul_of_nonneg_right h1 (le_of_lt (ulpExp_pos x))
      _ = 2 ^ (53 + ulpExp x) := by rw [zpow_add₀ (by norm_num)]
      _ ≤ 2 ^ (52 + ulpExp y) := zpow_le_zpow_right₀ (by norm_num) (by omega)
      _ = 2 ^ (52 : ℤ) * 2 ^ ulpExp y := by rw [zpow_add₀ (by norm_num)]
      _ ≤ (roundHalfEven (y / 2 ^ ulpExp y) : ℚ) * 2 ^ ulpExp y :=
          mul_le_mul_of_nonneg_right h2 (le_of_lt (ulpExp_pos y))

/-- The rounding of a non-negative value has a mantissa below 2^53 at an
exponent in range. -/
theorem roundFin_repr {x : ℚ} (hx : 0 ≤ x) :
    ∃ m j : ℤ, |m| < 2 ^ 53 ∧ -1074 ≤ j ∧ roundFin x = (m : ℚ) * 2 ^ j := by
  have hle := mantissa_le hx
  have hge : 0 ≤ roundHalfEven (x / 2 ^ ulpExp x) :=
    roundHalfEven_nonneg (div_nonneg hx (le_of_lt (ulpExp_pos x)))
  rcases eq_or_lt_of_le hle with heq | hlt
  · refine ⟨2 ^ 52, ulpExp x + 1, by norm_num, by have := ulpExp_ge x; omega, ?_⟩
    unfold roundFin
    rw [heq, zpow_add₀ (by norm_num)]
    push_cast
    ring
  · exact ⟨_, ulpExp x, by rw [abs_of_nonneg hge]; exact hlt, ulpExp_ge x, rfl⟩

theorem roundFin_idem {x : ℚ} (hx : 0 ≤ x) : roundFin (roundFin x) = roundFin x := by
  obtain ⟨m, j, hm, hj, e⟩ := roundFin_repr hx
  rw [e]
  exact roundFin_exact m j hm hj

theorem round64_of {x r : ℚ} (h : roundFin x = r) (h1 : r < 2 ^ 1024)
    (h2 : -2 ^ 1024 < r) : round64 x = .fin r := by
  unfold round64
  rw [h, if_neg (not_le.mpr h1), if_neg (not_le.mpr h2)]

theorem round64_fin {x s : ℚ} (h : round64 x = .fin s) :
    s = roundFin x ∧ s < 2 ^ 1024 ∧ -2 ^ 1024 < s := by
  unfold round64 at h
  split_ifs at h with h1 h2
  · simp only [F64.fin.injEq] at h
    subst h
    exact ⟨rfl, not_le.mp h1, not_le.mp h2⟩

/-- Conversion of a non-negative value gives positive infinity or a
non-negative float that converts to itself. -/
theorem round64_nonneg_cases {x : ℚ} (hx : 0 ≤ x) :
    round64 x = .posInf ∨
      ∃ r, round64 x = .fin r ∧ 0 ≤ r ∧ r = roundFin x ∧ round64 r = .fin r := by
  have h0 := roundFin_nonneg hx
  unfold round64
  split_ifs with h1 h2
  · exact Or.inl rfl
  · exfalso
    have : (0 : ℚ) < 2 ^ 1024 := by positivity
    linarith
  · refine Or.inr ⟨_, rfl, h0, rfl, ?_⟩
    exact round64_of (roundFin_idem hx) (not_le.mp h1) (not_le.mp h2)

/-- Conversion keeps the order of non-negative values. -/
theorem round64_mono {x y : ℚ} (hx : 0 ≤ x) (h : x ≤ y) :
    (round64 x).le (round64 y) = true := by
  have hm := roundFin_mono hx h
  have h0 := roundFin_nonneg hx
  have hpos : (0 : ℚ) < 2 ^ 1024 := by positivity
  unfold round64
  by_cases hy : (2 : ℚ) ^ 1024 ≤ roundFin y
  · rw [if_pos hy]
    by_cases hx1 : (2 : ℚ) ^ 1024 ≤ roundFin x
    · rw [if_pos hx1]; rfl
    · rw [if_neg hx1, if_neg (by linarith)]; rfl
  · rw [if_neg hy, if_neg (by linarith), if_neg (by linarith), if_neg (by linarith)]
    simpa [F64.le] using hm

theorem F64.add_fin {x y : F64} {s : ℚ} (h : x.add y = .fin s) :
    ∃ a b, x = .fin a ∧ y = .fin b ∧ round64 (a + b) = .fin s := by
  cases x <;> cases y <;> simp only [F64.add] at h <;>
    first
      | exact absurd h (by simp)
      | exact ⟨_, _, rfl, rfl, h⟩

/-! ## Updates of a series -/

/-- Wrong arity: the label check fails with `SchemaMismatch`, signalled the
accessor's way, and the store is the one passed in. -/
theorem updateSeries_mismatch {α : Type} (acc : Accessor) (zero : α) (step : α → Outcome α)
    (schema : List String) (store : SeriesStore α) (values : List String)
    (h : values.length ≠ schema.length) :
    updateSeries acc zero step schema store values =
      (store, acc.signal .SchemaMismatch) := by
  simp [updateSeries, labelKey, h]

/-- Right arity, cell update fails: the call panics with the failure and every
cell reads as before. -/
theorem updateSeries_fail {α : Type} (acc : Accessor) (zero : α) (step : α → Outcome α)
    (schema : List String) (store : SeriesStore α) (values : List String)
    (h : values.length = schema.length) (e : MetricsError)
    (hs : step (cellAt zero store (schema.zip values)) = .fail e) :
    (updateSeries acc zero step schema store values).2 = .aborted e ∧
    ∀ k, cellAt zero (updateSeries acc zero step schema store values).1 k =
      cellAt zero store k := by
  have hl : labelKey schema values = .ok (schema.zip values) := by simp [labelKey, h]
  unfold updateSeries
  rw [hl]
  simp only [getOrCreate_cell, hs]
  exact ⟨trivial, fun k => getOrCreate_cellAt zero store _ k⟩

/-- Right arity, cell update succeeds: the call is accepted, the series holds
the new cell and every other series reads as before. -/
theorem updateSeries_ok {α : Type} (acc : Accessor) (zero : α) (step : α → Outcome α)
    (schema : List String) (store : SeriesStore α) (values : List String)
    (h : values.length = schema.length) (c : α)
    (hs : step (cellAt zero store (schema.zip values)) = .ok c) :
    (updateSeries acc zero step schema store values).2 = .accepted ∧
    cellAt zero (updateSeries acc zero step schema store values).1 (schema.zip values) = c ∧
    ∀ k, k ≠ schema.zip values →
      cellAt zero (updateSeries acc zero step schema store values).1 k =
        cellAt zero store k := by
  have hl : labelKey schema values = .ok (schema.zip values) := by simp [labelKey, h]
  unfold updateSeries
  rw [hl]
  simp only [getOrCreate_cell, hs]
  refine ⟨trivial, ?_, ?_⟩
  · simp [cellAt, findSeries_storeCell, getOrCreate_found]
  · intro k hk
    have := getOrCreate_cellAt zero store (schema.zip values) k
    simp only [cellAt] at this ⊢
    rw [findSeries_storeCell, if_neg hk, this]

/-! ## Counter cells -/

theorem incrementCell_negative (delta : F64) (c : CounterCell)
    (hd : delta.lt (.fin 0) = true) : incrementCell delta c = .fail .InvalidDelta := by
  simp [incrementCell, hd]

theorem incrementCell_accepts (delta : F64) (c : CounterCell)
    (hd : delta.lt (.fin 0) = false) : ∃ c1, incrementCell delta c = .ok c1 := by
  unfold incrementCell
  rw [hd]
  cases wholePart delta <;> exact ⟨_, rfl⟩

theorem increment_negative (acc : Accessor) (f : MetricFamily)
    (store : SeriesStore CounterCell) (values : List String)
    (h : values.length = f.labels.length) (delta : F64) (hd : delta.lt (.fin 0) = true) :
    (increment acc f store values delta).2 = .aborted .InvalidDelta ∧
    ∀ k, cellAt zeroCounter (increment acc f store values delta).1 k =
      cellAt zeroCounter store k :=
  updateSeries_fail acc zeroCounter (incrementCell delta) f.labels store values h
    .InvalidDelta (incrementCell_negative delta _ hd)

theorem increment_accepted (acc : Accessor) (f : MetricFamily)
    (store : SeriesStore CounterCell) (values : List String)
    (h : values.length = f.labels.length) (delta : F64) (c1 : CounterCell)
    (hs : incrementCell delta (cellAt zeroCounter store (f.labels.zip values)) = .ok c1) :
    (increment acc f store values delta).2 = .accepted ∧
    cellAt zeroCounter (increment acc f store values delta).1 (f.labels.zip values) = c1 ∧
    ∀ k, k ≠ f.labels.zip values →
      cellAt zeroCounter (increment acc f store values delta).1 k =
        cellAt zeroCounter store k :=
  updateSeries_ok acc zeroCounter (incrementCell delta) f.labels store values h c1 hs

theorem increment_mismatch (acc : Accessor) (f : MetricFamily)
    (store : SeriesStore CounterCell) (values : List String)
    (h : values.length ≠ f.labels.length) (delta : F64) :
    increment acc f store values delta = (store, acc.signal .SchemaMismatch) :=
  updateSeries_mismatch acc zeroCounter (incrementCell delta) f.labels store values h

/-! ## Label arity -/

/-- C7, as stated: on the rotation counter an increment by -1 with two label
values, the schema's length, is not accepted but panics with `InvalidDelta`; an
observe with two label values on the one-label authorization-duration histogram,
made through `WithLabelValues`, panics with `SchemaMismatch` instead of coming
back as a result.  So acceptance is not decided by the number of label values
alone, and the failure can abort the caller. -/
theorem matching_arity_not_accepted :
    ["web", "spiffe://example.org/web"].length = SVIDRotations.labels.length ∧
    (increment .WithLabelValues SVIDRotations [] ["web", "spiffe://example.org/web"]
      (.fin (-1))).2 = .aborted .InvalidDelta ∧
    (observe .WithLabelValues AuthorizationDuration [] ["opa", "extra"] (1 / 2)).2 =
      .aborted .SchemaMismatch ∧
    ¬ (∀ f ∈ declared, f.kind = .counter →
        ∀ (acc : Accessor) (store : SeriesStore CounterCell) (values : List String)
          (delta : F64),
          ((increment acc f store values delta).2 = .accepted ↔
            values.length = f.labels.length) ∧
          (values.length ≠ f.labels.length →
            (increment acc f store values delta).2 = .returned .SchemaMismatch)) := by
  have hfail := (increment_negative .WithLabelValues SVIDRotations []
    ["web", "spiffe://example.org/web"] rfl (.fin (-1)) (by simp [F64.lt])).1
  refine ⟨rfl, hfail, ?_, ?_⟩
  · have h := updateSeries_mismatch .WithLabelValues (zeroCell AuthorizationDuration.Buckets)
      (fun c => .ok (observeCell c (1 / 2))) AuthorizationDuration.labels [] ["opa", "extra"]
      (by decide)
    have h2 : observe .WithLabelValues AuthorizationDuration [] ["opa", "extra"] (1 / 2) =
        ([], Accessor.WithLabelValues.signal .SchemaMismatch) := h
    rw [h2]
    rfl
  · intro h
    have hok := ((h SVIDRotations (by simp [declared]) rfl .WithLabelValues []
      ["web", "spiffe://example.org/web"] (.fin (-1))).1).2 rfl
    rw [hfail] at hok
    cases hok

/-- C7, amended: on each declared family an update with a number of label
values other than the schema's length (2, 2, 4, 4, 3, 1, 3 in declaration
order) fails with `SchemaMismatch` and returns the store it was given; the
failure comes back as an error value through `GetMetricWithLabelValues` and is
a panic through `WithLabelValues`.  With the schema's length a set and an
observe are accepted; an increment is accepted exactly when its delta is not
below zero, NaN included, and a delta below zero panics with `InvalidDelta`. -/
theorem label_arity_checked (f : MetricFamily) (hf : f ∈ declared) (acc : Accessor)
    (values : List String) :
    (f.fullName, f.labels.length) ∈
      [("spiffe_demo_svid_expiration_seconds", 2), ("spiffe_demo_svid_rotations_total", 2),
       ("spiffe_demo_http_request_duration_seconds", 4), ("spiffe_demo_http_requests_total", 4),
       ("spiffe_demo_authorization_decisions_total", 3),
       ("spiffe_demo_authorization_duration_seconds", 1),
       ("spiffe_demo_delegations_total", 3)] ∧
    (Accessor.GetMetricWithLabelValues.signal .SchemaMismatch = .returned .SchemaMismatch ∧
     Accessor.WithLabelValues.signal .SchemaMismatch = .aborted .SchemaMismatch) ∧
    (f.kind = .counter → ∀ (store : SeriesStore CounterCell) (delta : F64),
      (values.length ≠ f.labels.length →
        increment acc f store values delta = (store, acc.signal .SchemaMismatch)) ∧
      (values.length = f.labels.length → delta.lt (.fin 0) = true →
        (increment acc f store values delta).2 = .aborted .InvalidDelta) ∧
      (values.length = f.labels.length → delta.lt (.fin 0) = false →
        (increment acc f store values delta).2 = .accepted) ∧
      (values.length = f.labels.length →
        (increment acc f store values .nan).2 = .accepted) ∧
      ((increment acc f store values delta).2 = .accepted ↔
        values.length = f.labels.length ∧ delta.lt (.fin 0) = false)) ∧
    (f.kind = .gauge → ∀ (store : SeriesStore F64) (x : F64),
      (values.length ≠ f.labels.length →
        setGauge acc f store values x = (store, acc.signal .SchemaMismatch)) ∧
      ((setGauge acc f store values x).2 = .accepted ↔ values.length = f.labels.length)) ∧
    (f.kind = .histogram → ∀ (store : SeriesStore HistogramCell) (x : ℚ),
      (values.length ≠ f.labels.length →
        observe acc f store values x = (store, acc.signal .SchemaMismatch)) ∧
      ((observe acc f store values x).2 = .accepted ↔ values.length = f.labels.length)) := by
  have hsig : ∀ a : Accessor, a.signal .SchemaMismatch ≠ .accepted := by
    intro a; cases a <;> simp [Accessor.signal]
  refine ⟨?_, ⟨rfl, rfl⟩, ?_, ?_, ?_⟩
  · revert f
    decide
  · intro _ store delta
    have hneg : ∀ d : F64, values.length = f.labels.length → d.lt (.fin 0) = true →
        (increment acc f store values d).2 = .aborted .InvalidDelta :=
      fun d hlen hd => (increment_negative acc f store values hlen d hd).1
    have hacc : ∀ d : F64, values.length = f.labels.length → d.lt (.fin 0) = false →
        (increment acc f store values d).2 = .accepted := by
      intro d hlen hd
      obtain ⟨c1, hc1⟩ := incrementCell_accepts d
        (cellAt zeroCounter store (f.labels.zip values)) hd
      exact (increment_accepted acc f store values hlen d c1 hc1).1
    refine ⟨fun h => increment_mismatch acc f store values h delta, hneg delta, hacc delta,
      fun hlen => hacc .nan hlen rfl, ?_⟩
    constructor
    · intro hres
      by_cases hlen : values.length = f.labels.length
      · refine ⟨hlen, ?_⟩
        cases hd : delta.lt (.fin 0)
        · rfl
        · rw [hneg delta hlen hd] at hres
          cases hres
      · rw [increment_mismatch acc f store values hlen delta] at hres
        exact absurd hres (hsig acc)
    · rintro ⟨hlen, hd⟩
      exact hacc delta hlen hd
  · intro _ store x
    refine ⟨fun h => updateSeries_mismatch acc (F64.fin 0) (setCell x) f.labels store values h,
      ?_⟩
    constructor
    · intro hres
      by_contra hlen
      have h : setGauge acc f store values x = (store, acc.signal .SchemaMismatch) :=
        updateSeries_mismatch acc (F64.fin 0) (setCell x) f.labels store values hlen
      rw [h] at hres
      exact absurd hres (hsig acc)
    · intro hlen
      exact (updateSeries_ok acc (F64.fin 0) (setCell x) f.labels store values hlen x rfl).1
  · intro _ store x
    refine ⟨fun h => updateSeries_mismatch acc (zeroCell f.Buckets)
      (fun c => .ok (observeCell c x)) f.labels store values h, ?_⟩
    constructor
    · intro hres
      by_contra hlen
      have h : observe acc f store values x = (store, acc.signal .SchemaMismatch) :=
        updateSeries_mismatch acc (zeroCell f.Buckets) (fun c => .ok (observeCell c x))
          f.labels store values hlen
      rw [h] at hres
      exact absurd hres (hsig acc)
    · intro hlen
      exact (updateSeries_ok acc (zeroCell f.Buckets) (fun c => .ok (observeCell c x))
        f.labels store values hlen _ rfl).1

/-- C7 at the authorization-duration histogram, whose schema has one label:
an observe with two label values fails with `SchemaMismatch` and the store stays
empty, as an error value through `GetMetricWithLabelValues` and as a panic
through `WithLabelValues`; with one label value it is accepted. -/
theorem label_arity_checked_witness :
    AuthorizationDuration ∈ declared ∧
    observe .GetMetricWithLabelValues AuthorizationDuration [] ["opa", "extra"] (1 / 2) =
      ([], .returned .SchemaMismatch) ∧
    observe .WithLabelValues AuthorizationDuration [] ["opa", "extra"] (1 / 2) =
      ([], .aborted .SchemaMismatch) ∧
    (observe .WithLabelValues AuthorizationDuration [] ["opa"] (1 / 2)).2 = .accepted :=
  have hmem : AuthorizationDuration ∈ declared := by simp [declared]
  have h1 := ((label_arity_checked AuthorizationDuration hmem .GetMetricWithLabelValues
    ["opa", "extra"]).2.2.2.2 rfl [] (1 / 2)).1 (by decide)
  have h2 := ((label_arity_checked AuthorizationDuration hmem .WithLabelValues
    ["opa", "extra"]).2.2.2.2 rfl [] (1 / 2)).1 (by decide)
  have h3 := ((label_arity_checked AuthorizationDuration hmem .WithLabelValues
    ["opa"]).2.2.2.2 rfl [] (1 / 2)).2.mpr rfl
  ⟨hmem, h1, h2, h3⟩

/-! ## Order of non-negative floats -/

theorem F64.Settled.nonNeg {x : F64} (h : x.Settled) : x.NonNeg := by
  rcases h with h | ⟨a, h, h0, _⟩
  · exact Or.inl h
  · exact Or.inr ⟨a, h, h0⟩

theorem round64_settled {x : ℚ} (hx : 0 ≤ x) : (round64 x).Settled := by
  rcases round64_nonneg_cases hx with h | ⟨r, h, h0, _, hr⟩
  · exact Or.inl h
  · exact Or.inr ⟨r, h, h0, hr⟩

theorem round64_zero : round64 0 = .fin 0 :=
  round64_of roundFin_zero (by positivity) (by norm_num)

theorem nonNeg_of_not_lt {d : F64} (hn : d ≠ .nan) (h : d.lt (.fin 0) = false) :
    d.NonNeg := by
  cases d with
  | nan => exact absurd rfl hn
  | posInf => exact Or.inl rfl
  | negInf => simp [F64.lt] at h
  | fin q =>
    refine Or.inr ⟨q, rfl, ?_⟩
    simpa [F64.lt] using h

theorem F64.add_settled {x y : F64} (hx : x.NonNeg) (hy : y.NonNeg) : (x.add y).Settled := by
  rcases hx with rfl | ⟨a, rfl, ha⟩ <;> rcases hy with rfl | ⟨b, rfl, hb⟩
  · exact Or.inl rfl
  · exact Or.inl rfl
  · exact Or.inl rfl
  · exact round64_settled (add_nonneg ha hb)

theorem F64.le_rfl_of_nonNeg {x : F64} (hx : x.NonNeg) : x.le x = true := by
  rcases hx with rfl | ⟨a, rfl, _⟩ <;> simp [F64.le]

theorem F64.le_trans_of_nonNeg {x y z : F64} (hx : x.NonNeg) (hy : y.NonNeg) (hz : z.NonNeg)
    (h1 : x.le y = true) (h2 : y.le z = true) : x.le z = true := by
  rcases hx with rfl | ⟨a, rfl, _⟩ <;> rcases hy with rfl | ⟨b, rfl, _⟩ <;>
    rcases hz with rfl | ⟨c, rfl, _⟩ <;> simp [F64.le] at h1 h2 ⊢
  exact le_trans h1 h2

theorem F64.zero_le_of_nonNeg {x : F64} (hx : x.NonNeg) : (F64.fin 0).le x = true := by
  rcases hx with rfl | ⟨a, rfl, ha⟩ <;> simp [F64.le]
  exact ha

theorem F64.le_posInf_of_nonNeg {x : F64} (hx : x.NonNeg) : x.le .posInf = true := by
  rcases hx with rfl | ⟨a, rfl, _⟩ <;> rfl

theorem F64.add_posInf_left {y : F64} (hy : y.NonNeg) : F64.posInf.add y = .posInf := by
  rcases hy with rfl | ⟨a, rfl, _⟩ <;> rfl

theorem F64.add_posInf_right {x : F64} (hx : x.NonNeg) : x.add .posInf = .posInf := by
  rcases hx with rfl | ⟨a, rfl, _⟩ <;> rfl

theorem F64.le_fin_of_nonNeg {x : F64} {b : ℚ} (hx : x.NonNeg) (h : x.le (.fin b) = true) :
    ∃ a, x = .fin a ∧ 0 ≤ a ∧ a ≤ b := by
  rcases hx with rfl | ⟨a, rfl, ha⟩
  · simp [F64.le] at h
  · exact ⟨a, rfl, ha, by simpa [F64.le] using h⟩

/-- Float addition keeps the order of non-negative floats. -/
theorem F64.add_mono {x x1 y y1 : F64} (hx : x.NonNeg) (hx1 : x1.NonNeg) (hy : y.NonNeg)
    (hy1 : y1.NonNeg) (h1 : x.le x1 = true) (h2 : y.le y1 = true) :
    (x.add y).le (x1.add y1) = true := by
  have hsum : (x.add y).NonNeg := (F64.add_settled hx hy).nonNeg
  rcases hx1 with rfl | ⟨a1, rfl, _⟩
  · rw [F64.add_posInf_left hy1]
    exact F64.le_posInf_of_nonNeg hsum
  rcases hy1 with rfl | ⟨b1, rfl, _⟩
  · rw [F64.add_posInf_right (Or.inr ⟨a1, rfl, by assumption⟩)]
    exact F64.le_posInf_of_nonNeg hsum
  obtain ⟨a, rfl, ha, hab⟩ := F64.le_fin_of_nonNeg hx h1
  obtain ⟨b, rfl, hb, hbb⟩ := F64.le_fin_of_nonNeg hy h2
  exact round64_mono (add_nonneg ha hb) (add_le_add hab hbb)

/-- Adding a non-negative float to a float of the grid does not lower it. -/
theorem F64.le_add_right {x y : F64} (hx : x.Settled) (hy : y.NonNeg) :
    x.le (x.add y) = true := by
  rcases hx with rfl | ⟨a, rfl, ha, hr⟩ <;> rcases hy with rfl | ⟨b, rfl, hb⟩
  · rfl
  · rfl
  · rfl
  · have := round64_mono ha (le_add_of_nonneg_right hb : a ≤ a + b)
    rw [hr] at this
    exact this

/-! ## Counters -/

theorem value_settled {c : CounterCell} (h : c.valBits.Settled) : c.value.Settled :=
  F64.add_settled h.nonNeg (round64_settled (Nat.cast_nonneg _)).nonNeg

/-- One accepted increment without NaN and without wrap of the integer
accumulator: the cell stays on the float64 grid, the integer accumulator grows
by the delta's whole part, and the reported value does not go down. -/
theorem incrementCell_step {c c1 : CounterCell} {delta : F64} (hc : c.valBits.Settled)
    (hn : delta ≠ .nan) (hd : delta.lt (.fin 0) = false)
    (hw : c.valInt + (wholePart delta).getD 0 < 2 ^ 64)
    (hs : incrementCell delta c = .ok c1) :
    c1.valBits.Settled ∧ c1.valInt = c.valInt + (wholePart delta).getD 0 ∧
    c.value.le c1.value = true := by
  have hdn := nonNeg_of_not_lt hn hd
  have hr : ∀ n : ℕ, (round64 (n : ℚ)).NonNeg := fun n =>
    (round64_settled (Nat.cast_nonneg n)).nonNeg
  unfold incrementCell at hs
  rw [hd] at hs
  cases hwp : wholePart delta with
  | some n =>
    rw [hwp] at hs hw
    simp only [Bool.false_eq_true, if_false, Outcome.ok.injEq] at hs
    subst hs
    simp only [Option.getD_some] at hw ⊢
    refine ⟨hc, Nat.mod_eq_of_lt hw, ?_⟩
    unfold CounterCell.value
    simp only [Nat.mod_eq_of_lt hw]
    refine F64.add_mono hc.nonNeg hc.nonNeg (hr _) (hr _) (F64.le_rfl_of_nonNeg hc.nonNeg) ?_
    apply round64_mono (Nat.cast_nonneg _)
    push_cast
    exact le_add_of_nonneg_right (Nat.cast_nonneg n)
  | none =>
    rw [hwp] at hs
    simp only [Bool.false_eq_true, if_false, Outcome.ok.injEq] at hs
    subst hs
    simp only [Option.getD_none, add_zero]
    refine ⟨F64.add_settled hc.nonNeg hdn, trivial, ?_⟩
    unfold CounterCell.value
    exact F64.add_mono hc.nonNeg (F64.add_settled hc.nonNeg hdn).nonNeg (hr _) (hr _)
      (F64.le_add_right hc hdn) (F64.le_rfl_of_nonNeg (hr _))

/-- One increment call on a family, without NaN and without wrap: every series
stays on the grid, no integer accumulator exceeds the running total of whole
parts, and no series' value goes down. -/
theorem increment_step_mono (acc : Accessor) (f : MetricFamily)
    (store : SeriesStore CounterCell) (values : List String) (delta : F64) (T : ℕ)
    (hinv : ∀ k, (cellAt zeroCounter store k).valBits.Settled ∧
      (cellAt zeroCounter store k).valInt ≤ T)
    (hn : delta ≠ .nan) (hw : T + (wholePart delta).getD 0 < 2 ^ 64) :
    (∀ k, (cellAt zeroCounter (increment acc f store values delta).1 k).valBits.Settled ∧
      (cellAt zeroCounter (increment acc f store values delta).1 k).valInt ≤
        T + (wholePart delta).getD 0) ∧
    ∀ k, (counterValue store k).le
      (counterValue (increment acc f store values delta).1 k) = true := by
  have hsame : ∀ k, (counterValue store k).le (counterValue store k) = true := fun k =>
    F64.le_rfl_of_nonNeg (value_settled (hinv k).1).nonNeg
  have hkeep : ∀ k, (cellAt zeroCounter store k).valBits.Settled ∧
      (cellAt zeroCounter store k).valInt ≤ T + (wholePart delta).getD 0 := fun k =>
    ⟨(hinv k).1, le_trans (hinv k).2 (Nat.le_add_right _ _)⟩
  by_cases hlen : values.length = f.labels.length
  · cases hd : delta.lt (.fin 0) with
    | true =>
      have h := (increment_negative acc f store values hlen delta hd).2
      refine ⟨fun k => ?_, fun k => ?_⟩
      · rw [h k]; exact hkeep k
      · unfold counterValue; rw [h k]; exact hsame k
    | false =>
      obtain ⟨c1, hc1⟩ := incrementCell_accepts delta
        (cellAt zeroCounter store (f.labels.zip values)) hd
      obtain ⟨_, hkey, hother⟩ := increment_accepted acc f store values hlen delta c1 hc1
      have hstep := incrementCell_step (hinv (f.labels.zip values)).1 hn hd
        (lt_of_le_of_lt (Nat.add_le_add_right (hinv (f.labels.zip values)).2 _) hw) hc1
      refine ⟨fun k => ?_, fun k => ?_⟩
      · by_cases hk : k = f.labels.zip values
        · subst hk
          rw [hkey]
          exact ⟨hstep.1, by rw [hstep.2.1]; exact Nat.add_le_add_right (hinv _).2 _⟩
        · rw [hother k hk]; exact hkeep k
      · by_cases hk : k = f.labels.zip values
        · subst hk
          unfold counterValue
          rw [hkey]
          exact hstep.2.2
        · unfold counterValue; rw [hother k hk]; exact hsame k
  · rw [increment_mismatch acc f store values hlen delta]
    exact ⟨hkeep, hsame⟩

theorem wholeTotal_cons (call : List String × F64) (calls : List (List String × F64)) :
    wholeTotal (call :: calls) = (wholePart call.2).getD 0 + wholeTotal calls := by
  simp [wholeTotal]

theorem wholeTotal_append (calls more : List (List String × F64)) :
    wholeTotal (calls ++ more) = wholeTotal calls + wholeTotal more := by
  simp [wholeTotal]

theorem incrementCalls_append (acc : Accessor) (f : MetricFamily)
    (store : SeriesStore CounterCell) (calls more : List (List String × F64)) :
    incrementCalls acc f store (calls ++ more) =
      incrementCalls acc f (incrementCalls acc f store calls) more := by
  simp [incrementCalls, List.foldl_append]

/-- A sequence of increment calls without NaN and without wrap lowers no
series of the family. -/
theorem incrementCalls_mono (acc : Accessor) (f : MetricFamily)
    (calls : List (List String × F64)) (store : SeriesStore CounterCell) (T : ℕ)
    (hinv : ∀ k, (cellAt zeroCounter store k).valBits.Settled ∧
      (cellAt zeroCounter store k).valInt ≤ T)
    (hn : ∀ call ∈ calls, call.2 ≠ .nan) (hw : T + wholeTotal calls < 2 ^ 64) :
    (∀ k, (cellAt zeroCounter (incrementCalls acc f store calls) k).valBits.Settled ∧
      (cellAt zeroCounter (incrementCalls acc f store calls) k).valInt ≤
        T + wholeTotal calls) ∧
    ∀ k, (counterValue store k).le
      (counterValue (incrementCalls acc f store calls) k) = true := by
  induction calls generalizing store T with
  | nil =>
    exact ⟨by simpa [incrementCalls, wholeTotal] using hinv, fun k =>
      F64.le_rfl_of_nonNeg (value_settled (hinv k).1).nonNeg⟩
  | cons call rest ih =>
    rw [wholeTotal_cons] at hw ⊢
    have hstep := increment_step_mono acc f store call.1 call.2 T hinv
      (hn call (List.mem_cons_self _ _)) (by omega)
    have hrest := ih (increment acc f store call.1 call.2).1 (T + (wholePart call.2).getD 0)
      hstep.1 (fun c hc => hn c (List.mem_cons_of_mem _ hc)) (by omega)
    have hstore : incrementCalls acc f store (call :: rest) =
        incrementCalls acc f (increment acc f store call.1 call.2).1 rest := rfl
    rw [hstore]
    refine ⟨fun k => ?_, fun k => ?_⟩
    · have := hrest.1 k
      rw [Nat.add_assoc] at this
      exact this
    · exact F64.le_trans_of_nonNeg (value_settled (hinv k).1).nonNeg
        (value_settled (hstep.1 k).1).nonNeg (value_settled (hrest.1 k).1).nonNeg
        (hstep.2 k) (hrest.2 k)

theorem empty_store_settled (k : SeriesKey) (T : ℕ) :
    (cellAt zeroCounter ([] : SeriesStore CounterCell) k).valBits.Settled ∧
    (cellAt zeroCounter ([] : SeriesStore CounterCell) k).valInt ≤ T :=
  ⟨Or.inr ⟨0, rfl, le_refl _, round64_zero⟩, Nat.zero_le _⟩

/-- A value with a mantissa below 2^53 at an exponent in range converts to
itself. -/
theorem round64_exact (m j : ℤ) (hm : |m| < 2 ^ 53) (hj : -1074 ≤ j) (hj2 : j ≤ 970) :
    round64 ((m : ℚ) * 2 ^ j) = .fin ((m : ℚ) * 2 ^ j) := by
  have hb : |(m : ℚ) * 2 ^ j| < 2 ^ 1024 := by
    rw [abs_mul, abs_of_pos (show (0 : ℚ) < 2 ^ j by positivity)]
    have h1 : |(m : ℚ)| < 2 ^ (53 : ℤ) := by
      have : ((|m| : ℤ) : ℚ) < ((2 ^ 53 : ℤ) : ℚ) := by exact_mod_cast hm
      push_cast at this
      exact lt_of_lt_of_eq this (by norm_num)
    have h2 : (2 : ℚ) ^ j ≤ 2 ^ (970 : ℤ) := zpow_le_zpow_right₀ (by norm_num) hj2
    calc |(m : ℚ)| * 2 ^ j ≤ |(m : ℚ)| * 2 ^ (970 : ℤ) :=
          mul_le_mul_of_nonneg_left h2 (abs_nonneg _)
      _ < 2 ^ (53 : ℤ) * 2 ^ (970 : ℤ) := mul_lt_mul_of_pos_right h1 (by positivity)
      _ = 2 ^ (1023 : ℤ) := by rw [← zpow_add₀ (by norm_num)]; norm_num
      _ < 2 ^ 1024 := by norm_num
  rw [abs_lt] at hb
  exact round64_of (roundFin_exact m j hm hj) hb.2 hb.1

/-- Every whole number up to 2^53 is a float. -/
theorem round64_natCast (n : ℕ) (h : n ≤ 2 ^ 53) : round64 (n : ℚ) = .fin n := by
  rcases Nat.lt_or_ge n (2 ^ 53) with hlt | hge
  · have := round64_exact (n : ℤ) 0 (by rw [abs_of_nonneg (by positivity)]; exact_mod_cast hlt)
      (by norm_num) (by norm_num)
    simpa using this
  · have hn : n = 2 ^ 53 := le_antisymm h hge
    subst hn
    have := round64_exact (2 ^ 52) 1 (by norm_num) (by norm_num) (by norm_num)
    have e : (((2 ^ 52 : ℤ) : ℚ)) * 2 ^ (1 : ℤ) = (((2 ^ 53 : ℕ)) : ℚ) := by norm_num
    rw [e] at this
    exact this

theorem wholePart_natCast (n : ℕ) (h64 : n < 2 ^ 64) (hr : round64 (n : ℚ) = .fin n) :
    wholePart (.fin (n : ℚ)) = some n := by
  have hlt : (n : ℚ) < 2 ^ 64 := by exact_mod_cast h64
  simp only [wholePart, Int.floor_natCast, Int.toNat_ofNat, Nat.cast_nonneg, hlt, hr,
    and_self, if_true]

theorem lt_zero_natCast (n : ℕ) : (F64.fin (n : ℚ)).lt (.fin 0) = false := by
  simp [F64.lt]

theorem applyDeltas_whole (c : CounterCell) (n : ℕ) (rest : List F64) (h64 : n < 2 ^ 64)
    (hr : round64 (n : ℚ) = .fin n) :
    applyDeltas c (.fin (n : ℚ) :: rest) =
      applyDeltas { c with valInt := (c.valInt + n) % 2 ^ 64 } rest := by
  have h : incrementCell (.fin (n : ℚ)) c =
      .ok { c with valInt := (c.valInt + n) % 2 ^ 64 } := by
    unfold incrementCell
    rw [lt_zero_natCast, wholePart_natCast n h64 hr]
    simp
  simp only [applyDeltas, List.foldl_cons, h]

theorem applyDeltas_nan (c : CounterCell) (rest : List F64) :
    applyDeltas c (.nan :: rest) = applyDeltas { c with valBits := c.valBits.add .nan } rest :=
  rfl

/-- With nothing in the float accumulator the reported value is the integer
accumulator converted to float. -/
theorem value_of_whole {c : CounterCell} {r : ℚ} (hb : c.valBits = .fin 0)
    (hr : round64 (c.valInt : ℚ) = .fin r) : c.value = .fin r := by
  unfold CounterCell.value
  rw [hb, hr]
  rcases round64_nonneg_cases (Nat.cast_nonneg c.valInt : (0 : ℚ) ≤ c.valInt) with
    h | ⟨r1, h, _, _, hr1⟩
  · rw [hr] at h; cases h
  · rw [hr] at h
    cases h
    simp only [F64.add, zero_add]
    exact hr1

/-- Increment calls on one series of a family act on its cell as the run of
their deltas does. -/
theorem incrementCalls_cell (acc : Accessor) (f : MetricFamily) (values : List String)
    (hlen : values.length = f.labels.length) (deltas : List F64)
    (store : SeriesStore CounterCell) :
    cellAt zeroCounter (incrementCalls acc f store (deltas.map (fun d => (values, d))))
        (f.labels.zip values) =
      applyDeltas (cellAt zeroCounter store (f.labels.zip values)) deltas := by
  induction deltas generalizing store with
  | nil => rfl
  | cons d rest ih =>
    have hstore : incrementCalls acc f store ((d :: rest).map (fun d => (values, d))) =
        incrementCalls acc f (increment acc f store values d).1
          (rest.map (fun d => (values, d))) := rfl
    rw [hstore, ih]
    cases hs : incrementCell d (cellAt zeroCounter store (f.labels.zip values)) with
    | ok c1 =>
      rw [(increment_accepted acc f store values hlen d c1 hs).2.1]
      simp only [applyDeltas, List.foldl_cons, hs]
    | fail e =>
      have h := (updateSeries_fail acc zeroCounter (incrementCell d) f.labels store values
        hlen e hs).2 (f.labels.zip values)
      have h2 : cellAt zeroCounter (increment acc f store values d).1 (f.labels.zip values) =
          cellAt zeroCounter store (f.labels.zip values) := h
      rw [h2]
      simp only [applyDeltas, List.foldl_cons, hs]

/-- Whole-number deltas with a total of at most 2^53 are accumulated exactly. -/
theorem applyDeltas_exact (ns : List ℕ) (m : ℕ) (h : m + ns.sum ≤ 2 ^ 53) :
    applyDeltas { valBits := .fin 0, valInt := m } (ns.map (fun n : ℕ => F64.fin (n : ℚ))) =
      { valBits := .fin 0, valInt := m + ns.sum } := by
  induction ns generalizing m with
  | nil => simp [applyDeltas]
  | cons n rest ih =>
    rw [List.sum_cons] at h
    have hn : n ≤ 2 ^ 53 := by omega
    have hstep := applyDeltas_whole { valBits := .fin 0, valInt := m } n
      (rest.map (fun n : ℕ => F64.fin (n : ℚ))) (by omega) (round64_natCast n hn)
    rw [List.map_cons, hstep]
    have hmod : (m + n) % 2 ^ 64 = m + n := Nat.mod_eq_of_lt (by omega)
    simp only [hmod]
    rw [ih (m + n) (by omega), List.sum_cons, Nat.add_assoc]

theorem counterValue_empty (k : SeriesKey) :
    counterValue ([] : SeriesStore CounterCell) k = .fin 0 := by
  have h : cellAt zeroCounter ([] : SeriesStore CounterCell) k = zeroCounter := rfl
  unfold counterValue
  rw [h]
  exact value_of_whole rfl (by simpa [zeroCounter] using round64_zero)

theorem wholePart_le_wholeAmount (d : F64) : (wholePart d).getD 0 ≤ wholeAmount d := by
  cases d with
  | fin q =>
    simp only [wholePart, wholeAmount]
    by_cases h0 : 0 ≤ q
    · rw [if_pos h0]
      split_ifs <;> simp
    · rw [if_neg h0, if_neg (fun h => h0 h.1)]
      simp
  | nan => simp [wholePart]
  | posInf => simp [wholePart]
  | negInf => simp [wholePart]

theorem wholeTotal_le_floorTotal (calls : List (List String × F64)) :
    wholeTotal calls ≤ floorTotal calls := by
  induction calls with
  | nil => simp [wholeTotal, floorTotal]
  | cons call rest ih =>
    have h := wholePart_le_wholeAmount call.2
    simp only [wholeTotal, floorTotal, List.map_cons, List.sum_cons] at ih ⊢
    omega

/-- C8, as stated: on the rotation counter, from an empty store, two accepted
increments of 1e19 leave the value 1553255926290448384, below the 1e19 it had
after the first, because the integer accumulator wraps at 2^64; increments of
2^53 and then 1 leave the value 2^53, not 2^53 + 1; and an increment by NaN is
accepted and leaves the value NaN, which is not at least 0.  So an accepted
delta does not always give old value plus delta, and the value can decrease
and can stop being non-negative. -/
theorem counter_value_not_monotone :
    counterValue (incrementCalls .WithLabelValues SVIDRotations []
        [(["web", "id"], .fin 10000000000000000000)])
      [("service", "web"), ("spiffe_id", "id")] = .fin 10000000000000000000 ∧
    counterValue (incrementCalls .WithLabelValues SVIDRotations []
        [(["web", "id"], .fin 10000000000000000000),
         (["web", "id"], .fin 10000000000000000000)])
      [("service", "web"), ("spiffe_id", "id")] = .fin 1553255926290448384 ∧
    (F64.fin 1553255926290448384).lt (.fin 10000000000000000000) = true ∧
    counterValue (incrementCalls .WithLabelValues SVIDRotations []
        [(["web", "id"], .fin 9007199254740992), (["web", "id"], .fin 1)])
      [("service", "web"), ("spiffe_id", "id")] = .fin 9007199254740992 ∧
    (increment .WithLabelValues SVIDRotations [] ["web", "id"] .nan).2 = .accepted ∧
    counterValue (incrementCalls .WithLabelValues SVIDRotations []
        [(["web", "id"], .nan)])
      [("service", "web"), ("spiffe_id", "id")] = .nan ∧
    (F64.fin 0).le .nan = false := by
  have hcell : ∀ deltas : List F64,
      cellAt zeroCounter (incrementCalls .WithLabelValues SVIDRotations []
        (deltas.map (fun d => (["web", "id"], d)))) [("service", "web"), ("spiffe_id", "id")] =
      applyDeltas zeroCounter deltas := fun deltas =>
    incrementCalls_cell .WithLabelValues SVIDRotations ["web", "id"] rfl deltas []
  have e19 : (10000000000000000000 : ℚ) = ((10000000000000000000 : ℕ) : ℚ) := by norm_num
  have e53 : (9007199254740992 : ℚ) = ((9007199254740992 : ℕ) : ℚ) := by norm_num
  have e1 : (1 : ℚ) = ((1 : ℕ) : ℚ) := by norm_num
  have r19 : round64 ((10000000000000000000 : ℕ) : ℚ) = .fin ((10000000000000000000 : ℕ) : ℚ) := by
    have h := round64_exact 19073486328125 19 (by norm_num) (by norm_num) (by norm_num)
    have e : ((19073486328125 : ℤ) : ℚ) * 2 ^ (19 : ℤ) = ((10000000000000000000 : ℕ) : ℚ) := by
      norm_num
    rw [e] at h
    exact h
  have rwrap : round64 ((1553255926290448384 : ℕ) : ℚ) = .fin 1553255926290448384 := by
    have h := round64_exact 1481300283709 20 (by norm_num) (by norm_num) (by norm_num)
    have e : ((1481300283709 : ℤ) : ℚ) * 2 ^ (20 : ℤ) = ((1553255926290448384 : ℕ) : ℚ) := by
      norm_num
    rw [e] at h
    rw [h]
    norm_num
  have r53 : round64 ((9007199254740992 : ℕ) : ℚ) = .fin ((9007199254740992 : ℕ) : ℚ) :=
    round64_natCast _ (by norm_num)
  have r531 : round64 ((9007199254740993 : ℕ) : ℚ) = .fin 9007199254740992 := by
    have hl : roundFin ((9007199254740993 : ℕ) : ℚ) =
        ((4503599627370496 : ℤ) : ℚ) * 2 ^ max ((53 : ℤ) - 52) (-1074) := by
      apply roundFin_of_log (L := 53)
      · rw [abs_of_nonneg (by positivity)]; norm_num
      · rw [abs_of_nonneg (by positivity)]; norm_num
      · have ht := roundHalfEven_tie (x := ((9007199254740993 : ℕ) : ℚ) /
            2 ^ max ((53 : ℤ) - 52) (-1074)) (m := 4503599627370496) (by norm_num)
        rw [ht]
        norm_num
    refine round64_of (hl.trans (by norm_num)) (by norm_num) (by norm_num)
  refine ⟨?_, ?_, by simp [F64.lt]; norm_num, ?_, ?_, ?_, rfl⟩
  · have h := hcell [.fin 10000000000000000000]
    simp only [List.map_cons, List.map_nil] at h
    unfold counterValue
    rw [h, e19, applyDeltas_whole _ _ _ (by norm_num) r19]
    exact value_of_whole rfl (by
      simp only [applyDeltas, List.foldl_nil, zeroCounter]
      exact r19)
  · have h := hcell [.fin 10000000000000000000, .fin 10000000000000000000]
    simp only [List.map_cons, List.map_nil] at h
    unfold counterValue
    rw [h, e19, applyDeltas_whole _ _ _ (by norm_num) r19,
      applyDeltas_whole _ _ _ (by norm_num) r19]
    exact value_of_whole rfl (by
      simp only [applyDeltas, List.foldl_nil, zeroCounter]
      exact rwrap)
  · have h := hcell [.fin 9007199254740992, .fin 1]
    simp only [List.map_cons, List.map_nil] at h
    unfold counterValue
    rw [h, e53, e1, applyDeltas_whole _ _ _ (by norm_num) r53,
      applyDeltas_whole _ _ _ (by norm_num) (round64_natCast 1 (by norm_num))]
    exact value_of_whole rfl (by
      simp only [applyDeltas, List.foldl_nil, zeroCounter]
      exact r531)
  · obtain ⟨c1, hc1⟩ := incrementCell_accepts .nan
      (cellAt zeroCounter [] (SVIDRotations.labels.zip ["web", "id"])) rfl
    exact (increment_accepted .WithLabelValues SVIDRotations [] ["web", "id"] rfl .nan c1
      hc1).1
  · have h := hcell [.nan]
    simp only [List.map_cons, List.map_nil] at h
    unfold counterValue
    rw [h, applyDeltas_nan]
    simp [applyDeltas, CounterCell.value, zeroCounter, F64.add]

/-- C8, amended: on a declared counter family, for every series and every
delta: a delta below zero is rejected with `InvalidDelta` and every counter
value stays as it was; any other delta, NaN included, is accepted.  A run of
whole-number deltas with a total of at most 2^53 on a new series leaves exactly
their total, so each new value is the old one plus delta.  A series starts at
0, and over any sequence of increment calls without a NaN delta and with the
whole parts of the deltas totalling less than 2^64 its value is at least 0 and
never decreases. -/
theorem counter_increment (f : MetricFamily) (_hf : f ∈ declared)
    (_hk : f.kind = .counter) (acc : Accessor) (store : SeriesStore CounterCell)
    (values : List String) (hlen : values.length = f.labels.length) (delta : F64) :
    (delta.lt (.fin 0) = true →
      (increment acc f store values delta).2 = .aborted .InvalidDelta ∧
      ∀ k, counterValue (increment acc f store values delta).1 k = counterValue store k) ∧
    (delta.lt (.fin 0) = false → (increment acc f store values delta).2 = .accepted) ∧
    (∀ ns : List ℕ, ns.sum ≤ 2 ^ 53 →
      counterValue
        (incrementCalls acc f [] (ns.map (fun n : ℕ => (values, F64.fin (n : ℚ)))))
        (f.labels.zip values) = .fin (ns.sum : ℚ)) ∧
    (∀ (calls more : List (List String × F64)) (k : SeriesKey),
      (∀ call ∈ calls ++ more, call.2 ≠ .nan) → floorTotal (calls ++ more) < 2 ^ 64 →
      counterValue ([] : SeriesStore CounterCell) k = .fin 0 ∧
      (F64.fin 0).le (counterValue (incrementCalls acc f [] calls) k) = true ∧
      (counterValue (incrementCalls acc f [] calls) k).le
        (counterValue (incrementCalls acc f [] (calls ++ more)) k) = true) := by
  refine ⟨?_, ?_, ?_, ?_⟩
  · intro hd
    have h := increment_negative acc f store values hlen delta hd
    exact ⟨h.1, fun k => by unfold counterValue; rw [h.2 k]⟩
  · intro hd
    obtain ⟨c1, hc1⟩ := incrementCell_accepts delta
      (cellAt zeroCounter store (f.labels.zip values)) hd
    exact (increment_accepted acc f store values hlen delta c1 hc1).1
  · intro ns hns
    have hmap : ns.map (fun n : ℕ => (values, F64.fin (n : ℚ))) =
        (ns.map (fun n : ℕ => F64.fin (n : ℚ))).map (fun d => (values, d)) := by
      rw [List.map_map]; rfl
    have hcell := incrementCalls_cell acc f values hlen
      (ns.map (fun n : ℕ => F64.fin (n : ℚ))) []
    have hzero : cellAt zeroCounter ([] : SeriesStore CounterCell) (f.labels.zip values) =
        { valBits := .fin 0, valInt := 0 } := rfl
    unfold counterValue
    rw [hmap, hcell, hzero, applyDeltas_exact ns 0 (by omega)]
    refine value_of_whole rfl ?_
    simp only [Nat.zero_add]
    exact round64_natCast ns.sum hns
  · intro calls more k hn hfl
    have hw := lt_of_le_of_lt (wholeTotal_le_floorTotal (calls ++ more)) hfl
    rw [wholeTotal_append] at hw
    have h1 := incrementCalls_mono acc f calls [] 0 (fun k => empty_store_settled k 0)
      (fun c hc => hn c (List.mem_append_left _ hc)) (by omega)
    have h2 := incrementCalls_mono acc f more (incrementCalls acc f [] calls)
      (0 + wholeTotal calls) h1.1 (fun c hc => hn c (List.mem_append_right _ hc)) (by omega)
    refine ⟨counterValue_empty k, ?_, ?_⟩
    · exact F64.zero_le_of_nonNeg (value_settled (h1.1 k).1).nonNeg
    · rw [incrementCalls_append]
      exact h2.2 k

/-- C8 at the rotation counter: from the empty store, incrementing the series
(web, id) by -1 panics with `InvalidDelta` and the series still reads 0;
incrementing it by 1, 2 and 3 leaves 6; and after 1 and 0.5 the value is not
below the 1 it had before. -/
theorem counter_increment_witness :
    SVIDRotations ∈ declared ∧ SVIDRotations.kind = .counter ∧
    (increment .WithLabelValues SVIDRotations [] ["web", "id"] (.fin (-1))).2 =
      .aborted .InvalidDelta ∧
    counterValue (increment .WithLabelValues SVIDRotations [] ["web", "id"] (.fin (-1))).1
      [("service", "web"), ("spiffe_id", "id")] = .fin 0 ∧
    counterValue (incrementCalls .WithLabelValues SVIDRotations []
        [(["web", "id"], .fin ((1 : ℕ) : ℚ)), (["web", "id"], .fin ((2 : ℕ) : ℚ)),
         (["web", "id"], .fin ((3 : ℕ) : ℚ))])
      [("service", "web"), ("spiffe_id", "id")] = .fin ((6 : ℕ) : ℚ) ∧
    (counterValue (incrementCalls .WithLabelValues SVIDRotations []
        [(["web", "id"], .fin 1)]) [("service", "web"), ("spiffe_id", "id")]).le
      (counterValue (incrementCalls .WithLabelValues SVIDRotations []
        ([(["web", "id"], .fin 1)] ++ [(["web", "id"], .fin (1 / 2))]))
        [("service", "web"), ("spiffe_id", "id")]) = true := by
  have hmem : SVIDRotations ∈ declared := by simp [declared]
  have h := counter_increment SVIDRotations hmem rfl .WithLabelValues [] ["web", "id"] rfl
    (.fin (-1))
  have hneg := h.1 (by simp [F64.lt])
  refine ⟨hmem, rfl, hneg.1, ?_, h.2.2.1 [1, 2, 3] (by norm_num), ?_⟩
  · rw [hneg.2]
    exact counterValue_empty _
  · refine (h.2.2.2 [(["web", "id"], .fin 1)] [(["web", "id"], .fin (1 / 2))] _ ?_ ?_).2.2
    · intro call hc
      simp only [List.mem_append, List.mem_singleton] at hc
      rcases hc with rfl | rfl <;> simp
    · have h1 : wholeAmount (.fin 1) = 1 := by
        simp [wholeAmount]
      have h2 : wholeAmount (.fin (1 / 2)) = 0 := by
        have hfl : ⌊(1 / 2 : ℚ)⌋ = 0 := by
          rw [Int.floor_eq_iff]; norm_num
        simp only [wholeAmount, hfl]
        simp
      simp only [floorTotal, List.singleton_append, List.map_cons, List.map_nil,
        List.sum_cons, List.sum_nil, h1, h2]
      norm_num

/-! ## Histograms -/

theorem observeCell_map (bs : List UpperBound) (g : UpperBound → Nat) (s : F64) (n : Nat)
    (v : ℚ) :
    observeCell ⟨bs.map (fun b => (b, g b)), s, n⟩ v =
      ⟨bs.map (fun b => (b, g b + if b.covers v then 1 else 0)), s.add (round64 v),
        n + 1⟩ := by
  simp only [observeCell, List.map_map, HistogramCell.mk.injEq, and_true]
  apply List.map_congr_left
  intro b _
  by_cases h : b.covers v <;> simp [h]

/-- After a run of observations every bucket has gained the number of observed
values it covers; the sum has had each value added as a float, in order; the
count has gained the number of values. -/
theorem observeAll_map (bs : List UpperBound) (vs : List ℚ) (g : UpperBound → Nat)
    (s : F64) (n : Nat) :
    observeAll ⟨bs.map (fun b => (b, g b)), s, n⟩ vs =
      ⟨bs.map (fun b => (b, g b + vs.countP (fun v => b.covers v))),
        vs.foldl (fun s v => s.add (round64 v)) s, n + vs.length⟩ := by
  induction vs generalizing g s n with
  | nil => simp [observeAll]
  | cons v rest ih =>
    have hstep : observeAll ⟨bs.map (fun b => (b, g b)), s, n⟩ (v :: rest) =
        observeAll (observeCell ⟨bs.map (fun b => (b, g b)), s, n⟩ v) rest := rfl
    rw [hstep, observeCell_map, ih]
    simp only [HistogramCell.mk.injEq, List.foldl_cons, List.length_cons, true_and]
    refine ⟨?_, by omega⟩
    apply List.map_congr_left
    intro b _
    rw [List.countP_cons]
    simp only [Prod.mk.injEq, true_and]
    omega

theorem observeAll_zeroCell (bounds : List ℚ) (vs : List ℚ) :
    observeAll (zeroCell bounds) vs =
      ⟨(bucketBounds bounds).map (fun b => (b, vs.countP (fun v => b.covers v))),
        floatSum vs, vs.length⟩ := by
  have h := observeAll_map (bucketBounds bounds) vs (fun _ => 0) (.fin 0) 0
  simp only [zero_add] at h
  exact h

theorem bucketCount_map (bs : List UpperBound) (g : UpperBound → Nat) (s : F64) (n : Nat)
    (b : UpperBound) (hb : b ∈ bs) :
    bucketCount ⟨bs.map (fun b => (b, g b)), s, n⟩ b = some (g b) := by
  induction bs with
  | nil => cases hb
  | cons a rest ih =>
    by_cases h : a = b
    · subst h
      simp [bucketCount]
    · have hrest : b ∈ rest := by
        rcases List.mem_cons.mp hb with e | e
        · exact absurd e.symm h
        · exact e
      have hd : decide ((a, g a).1 = b) = false := by simp [h]
      have := ih hrest
      simp only [bucketCount, List.map_cons, List.find?_cons, hd] at this ⊢
      exact this

/-- Cumulative counts along ascending bounds, the sentinel last, do not
decrease. -/
theorem counts_sorted (bounds : List ℚ) (hs : bounds.Sorted (· < ·)) (vs : List ℚ) :
    (((bucketBounds bounds).map
      (fun b => (b, vs.countP (fun v => b.covers v)))).map Prod.snd).Sorted (· ≤ ·) := by
  simp only [List.map_map, bucketBounds, List.map_append, List.map_cons, List.map_nil,
    List.Sorted, List.pairwise_append, List.pairwise_map, List.mem_map, List.mem_singleton,
    Function.comp, UpperBound.covers]
  refine ⟨?_, List.pairwise_singleton _ _, ?_⟩
  · refine List.Pairwise.imp ?_ hs
    intro a b hab
    apply List.countP_mono_left
    intro x _ hx
    simp only [decide_eq_true_eq] at hx ⊢
    exact le_trans hx (le_of_lt hab)
  · rintro x ⟨a, _, rfl⟩ y rfl
    exact List.countP_mono_left (fun _ _ _ => rfl)

/-- A run of observations on one series of a family leaves that series with
the cell the run produces from the series' earlier cell. -/
theorem observeCalls_cell (acc : Accessor) (f : MetricFamily) (values : List String)
    (hlen : values.length = f.labels.length) (vs : List ℚ)
    (store : SeriesStore HistogramCell) :
    cellAt (zeroCell f.Buckets) (observeCalls acc f store values vs) (f.labels.zip values) =
      observeAll (cellAt (zeroCell f.Buckets) store (f.labels.zip values)) vs := by
  induction vs generalizing store with
  | nil => rfl
  | cons v rest ih =>
    have hstep : observeCalls acc f store values (v :: rest) =
        observeCalls acc f (observe acc f store values v).1 values rest := rfl
    have hcell := (updateSeries_ok acc (zeroCell f.Buckets) (fun c => .ok (observeCell c v))
      f.labels store values hlen _ rfl).2.1
    have hcell2 : cellAt (zeroCell f.Buckets) (observe acc f store values v).1
        (f.labels.zip values) =
        observeCell (cellAt (zeroCell f.Buckets) store (f.labels.zip values)) v := hcell
    rw [hstep, ih, hcell2]
    rfl

theorem floatSum_append (vs : List ℚ) (v : ℚ) :
    floatSum (vs ++ [v]) = (floatSum vs).add (round64 v) := by
  simp [floatSum, List.foldl_append]

theorem abs_sum_le (vs : List ℚ) : |vs.sum| ≤ (vs.map (fun v => |v|)).sum := by
  induction vs with
  | nil => simp
  | cons v rest ih =>
    simp only [List.sum_cons, List.map_cons]
    exact le_trans (abs_add _ _) (by linarith)

theorem sum_abs_nonneg (vs : List ℚ) : 0 ≤ (vs.map (fun v => |v|)).sum := by
  induction vs with
  | nil => simp
  | cons v rest ih =>
    simp only [List.sum_cons, List.map_cons]
    have := abs_nonneg v
    linarith

/-- One step of the error recurrence of a float sum. -/
theorem tolerance_step {u w Q W V A E a b av : ℚ} (hu : 0 < u) (hQ : 1 ≤ Q)
    (hW : 0 ≤ W) (hE : E ≤ (Q - 1) * W) (ha : a ≤ u * (av + w))
    (hb : b ≤ u * (E + A + av + a) + u * w) (hV : W ≤ V) (hv : av + w ≤ V)
    (hA : A + av + w ≤ V) :
    E + a + b ≤ (Q * (1 + u) ^ 2 - 1) * V := by
  have hV0 : 0 ≤ V := le_trans hW hV
  have h1 : (1 + u) * E ≤ (1 + u) * ((Q - 1) * W) :=
    mul_le_mul_of_nonneg_left hE (by linarith)
  have h2 : (1 + u) * ((Q - 1) * W) ≤ (1 + u) * ((Q - 1) * V) :=
    mul_le_mul_of_nonneg_left (mul_le_mul_of_nonneg_left hV (by linarith)) (by linarith)
  have h3 : (1 + u) * a ≤ (1 + u) * (u * (av + w)) :=
    mul_le_mul_of_nonneg_left ha (by linarith)
  have h4 : (1 + u) * (u * (av + w)) ≤ (1 + u) * (u * V) :=
    mul_le_mul_of_nonneg_left (mul_le_mul_of_nonneg_left hv (le_of_lt hu)) (by linarith)
  have h5 : u * (A + av + w) ≤ u * V := mul_le_mul_of_nonneg_left hA (le_of_lt hu)
  have h6 : 0 ≤ u * (1 + u) * (Q - 1) * V := by
    apply mul_nonneg _ hV0
    apply mul_nonneg _ (by linarith)
    apply mul_nonneg (le_of_lt hu) (by linarith)
  have e : (Q * (1 + u) ^ 2 - 1) * V =
      (1 + u) * ((Q - 1) * V) + (1 + u) * (u * V) + u * V +
        u * (1 + u) * (Q - 1) * V := by ring
  rw [e]
  have hb2 : b ≤ u * E + u * (A + av + w) + u * a := by linarith
  have e2 : E + a + (u * E + u * (A + av + w) + u * a) =
      (1 + u) * E + (1 + u) * a + u * (A + av + w) := by ring
  linarith

/-- The float sum of a run of observations, when it is finite, is within
`sumTolerance` of the arithmetic sum of the observed values. -/
theorem floatSum_tolerance (vs : List ℚ) (s : ℚ) (h : floatSum vs = .fin s) :
    |s - vs.sum| ≤ sumTolerance vs.length (vs.map (fun v => |v|)).sum := by
  induction vs using List.reverseRecOn generalizing s with
  | nil =>
    have h0 : s = 0 := by
      have : F64.fin 0 = F64.fin s := h
      simp only [F64.fin.injEq] at this
      exact this.symm
    subst h0
    simp [sumTolerance]
  | append_singleton vs v ih =>
    rw [floatSum_append] at h
    obtain ⟨s0, r, hs0, hr, hsum⟩ := F64.add_fin h
    have hE := ih s0 hs0
    obtain ⟨hr1, -, -⟩ := round64_fin hr
    obtain ⟨hs1, -, -⟩ := round64_fin hsum
    have ta := roundFin_tol v
    have tb := roundFin_tol (s0 + r)
    rw [← hr1] at ta
    rw [← hs1] at tb
    have hsplit : (2 : ℚ) ^ (-1075 : ℤ) = 2 ^ (-53 : ℤ) * 2 ^ (-1022 : ℤ) := by
      rw [← zpow_add₀ (by norm_num)]; norm_num
    rw [hsplit] at ta tb
    have hA := abs_sum_le vs
    have hA0 := sum_abs_nonneg vs
    simp only [sumTolerance, List.length_append, List.length_singleton, List.map_append,
      List.map_cons, List.map_nil, List.sum_append, List.sum_cons, List.sum_nil, add_zero,
      Nat.cast_add, Nat.cast_one] at hE ⊢
    have hu : (0 : ℚ) < 2 ^ (-53 : ℤ) := by positivity
    have hw : (0 : ℚ) < 2 ^ (-1022 : ℤ) := by positivity
    generalize (2 : ℚ) ^ (-53 : ℤ) = u at *
    generalize (2 : ℚ) ^ (-1022 : ℤ) = w at *
    have hQ : (1 : ℚ) ≤ (1 + u) ^ (2 * vs.length) := one_le_pow₀ (by linarith)
    have hpow : (1 + u) ^ (2 * (vs.length + 1)) = (1 + u) ^ (2 * vs.length) * (1 + u) ^ 2 := by
      rw [Nat.mul_add, pow_add]
    rw [hpow]
    generalize (1 + u) ^ (2 * vs.length) = Q at *
    have hn : (0 : ℚ) ≤ (vs.length : ℚ) := Nat.cast_nonneg _
    generalize (vs.length : ℚ) = n at *
    generalize (List.map (fun v => |v|) vs).sum = A at *
    have hnw : 0 ≤ n * w := mul_nonneg hn (le_of_lt hw)
    have hsr : |s0 + r| ≤ |s0 - vs.sum| + A + |v| + |r - v| := by
      have e : s0 + r = (s0 - vs.sum) + vs.sum + v + (r - v) := by ring
      rw [e]
      have h1 := abs_add ((s0 - vs.sum) + vs.sum + v) (r - v)
      have h2 := abs_add ((s0 - vs.sum) + vs.sum) v
      have h3 := abs_add (s0 - vs.sum) vs.sum
      linarith
    have hgoal : |s - (vs.sum + v)| ≤ |s0 - vs.sum| + |r - v| + |s - (s0 + r)| := by
      have e : s - (vs.sum + v) = (s0 - vs.sum) + (r - v) + (s - (s0 + r)) := by ring
      rw [e]
      have h1 := abs_add ((s0 - vs.sum) + (r - v)) (s - (s0 + r))
      have h2 := abs_add (s0 - vs.sum) (r - v)
      linarith
    have hb : |s - (s0 + r)| ≤ u * (|s0 - vs.sum| + A + |v| + |r - v|) + u * w := by
      have := mul_le_mul_of_nonneg_left hsr (le_of_lt hu)
      linarith
    have ha : |r - v| ≤ u * (|v| + w) := by linarith
    have hstep := tolerance_step (W := A + n * w) (V := A + |v| + (n + 1) * w) hu hQ
      (by linarith) hE ha hb
      (by have := abs_nonneg v; nlinarith) (by nlinarith) (by nlinarith)
    exact le_trans hgoal hstep

/-- Conversion of a positive value in the normal range, from its binade and
the nearest mantissa. -/
theorem round64_eval {x r : ℚ} (L m : ℤ) (hx : 0 < x) (h1 : (2 : ℚ) ^ L ≤ x)
    (h2 : x < (2 : ℚ) ^ (L + 1)) (hL : -1022 ≤ L)
    (hnear : |x / 2 ^ (L - 52) - m| < 1 / 2) (hr : (m : ℚ) * 2 ^ (L - 52) = r)
    (hb : r < 2 ^ 1024) (hb2 : -2 ^ 1024 < r) : round64 x = .fin r := by
  have hmax : max (L - 52) (-1074) = L - 52 :=
    max_eq_left (le_trans (by norm_num) (Int.sub_le_sub_right hL 52))
  have h := roundFin_of_log (x := x) (L := L) (m := m) (by rw [abs_of_pos hx]; exact h1)
    (by rw [abs_of_pos hx]; exact h2) (by rw [hmax]; exact roundHalfEven_of_near hnear)
  rw [hmax, hr] at h
  exact round64_of h hb hb2

/-- Conversion of a positive value in the normal range that lies halfway
between two mantissas. -/
theorem round64_eval_tie {x r : ℚ} (L m : ℤ) (hx : 0 < x) (h1 : (2 : ℚ) ^ L ≤ x)
    (h2 : x < (2 : ℚ) ^ (L + 1)) (hL : -1022 ≤ L)
    (htie : x / 2 ^ (L - 52) = m + 1 / 2)
    (hr : (((if m % 2 = 0 then m else m + 1 : ℤ)) : ℚ) * 2 ^ (L - 52) = r)
    (hb : r < 2 ^ 1024) (hb2 : -2 ^ 1024 < r) : round64 x = .fin r := by
  have hmax : max (L - 52) (-1074) = L - 52 :=
    max_eq_left (le_trans (by norm_num) (Int.sub_le_sub_right hL 52))
  have h := roundFin_of_log (x := x) (L := L) (m := if m % 2 = 0 then m else m + 1)
    (by rw [abs_of_pos hx]; exact h1) (by rw [abs_of_pos hx]; exact h2)
    (by rw [hmax]; exact roundHalfEven_tie htie)
  rw [hmax, hr] at h
  exact round64_of h hb hb2

/-- The float sum of the observations 0.1 and 0.2 is 0.30000000000000004. -/
theorem floatSum_tenth_fifth :
    floatSum [1 / 10, 2 / 10] = .fin (1351079888211149 / 4503599627370496) := by
  have ha : round64 (1 / 10) = .fin (3602879701896397 / 36028797018963968) :=
    round64_eval (-4) 7205759403792794 (by norm_num) (by norm_num) (by norm_num)
      (by norm_num) (by rw [abs_lt]; constructor <;> norm_num) (by norm_num) (by norm_num)
      (by norm_num)
  have hb : round64 (2 / 10) = .fin (3602879701896397 / 18014398509481984) :=
    round64_eval (-3) 7205759403792794 (by norm_num) (by norm_num) (by norm_num)
      (by norm_num) (by rw [abs_lt]; constructor <;> norm_num) (by norm_num) (by norm_num)
      (by norm_num)
  have h0a : round64 (0 + 3602879701896397 / 36028797018963968) =
      .fin (3602879701896397 / 36028797018963968) := by
    have h := round64_exact 7205759403792794 (-56) (by norm_num) (by norm_num) (by norm_num)
    have e : ((7205759403792794 : ℤ) : ℚ) * 2 ^ (-56 : ℤ) =
        0 + 3602879701896397 / 36028797018963968 := by norm_num
    rw [e] at h
    rw [h]
    norm_num
  have hab : round64 (3602879701896397 / 36028797018963968 +
      3602879701896397 / 18014398509481984) =
      .fin (1351079888211149 / 4503599627370496) :=
    round64_eval_tie (-2) 5404319552844595 (by norm_num) (by norm_num) (by norm_num)
      (by norm_num) (by norm_num) (by norm_num) (by norm_num) (by norm_num)
  simp only [floatSum, List.foldl_cons, List.foldl_nil, ha, hb, F64.add, h0a, hab]

/-- The float sum of the observations 0.05, 0.3 and 2.0 is the float 2.35. -/
theorem floatSum_scenario :
    floatSum [1 / 20, 3 / 10, 2] = .fin (5291729562160333 / 2251799813685248) := by
  have ha : round64 (1 / 20) = .fin (3602879701896397 / 72057594037927936) :=
    round64_eval (-5) 7205759403792794 (by norm_num) (by norm_num) (by norm_num)
      (by norm_num) (by rw [abs_lt]; constructor <;> norm_num) (by norm_num) (by norm_num)
      (by norm_num)
  have hb : round64 (3 / 10) = .fin (5404319552844595 / 18014398509481984) :=
    round64_eval (-2) 5404319552844595 (by norm_num) (by norm_num) (by norm_num)
      (by norm_num) (by rw [abs_lt]; constructor <;> norm_num) (by norm_num) (by norm_num)
      (by norm_num)
  have hc : round64 2 = .fin 2 := by
    have h := round64_natCast 2 (by norm_num)
    simpa using h
  have h0a : round64 (0 + 3602879701896397 / 72057594037927936) =
      .fin (3602879701896397 / 72057594037927936) := by
    have h := round64_exact 7205759403792794 (-57) (by norm_num) (by norm_num) (by norm_num)
    have e : ((7205759403792794 : ℤ) : ℚ) * 2 ^ (-57 : ℤ) =
        0 + 3602879701896397 / 72057594037927936 := by norm_num
    rw [e] at h
    rw [h]
    norm_num
  have hab : round64 (3602879701896397 / 72057594037927936 +
      5404319552844595 / 18014398509481984) =
      .fin (3152519739159347 / 9007199254740992) :=
    round64_eval (-2) 6305039478318694 (by norm_num) (by norm_num) (by norm_num)
      (by norm_num) (by rw [abs_lt]; constructor <;> norm_num) (by norm_num) (by norm_num)
      (by norm_num)
  have habc : round64 (3152519739159347 / 9007199254740992 + 2) =
      .fin (5291729562160333 / 2251799813685248) :=
    round64_eval 1 5291729562160333 (by norm_num) (by norm_num) (by norm_num)
      (by norm_num) (by rw [abs_lt]; constructor <;> norm_num) (by norm_num) (by norm_num)
      (by norm_num)
  simp only [floatSum, List.foldl_cons, List.foldl_nil, ha, hb, hc, F64.add, h0a, hab, habc]

/-- C6, as stated: on the authorization-duration histogram the observations 0.1
and 0.2 leave the sum 0.30000000000000004, the float
1351079888211149 / 4503599627370496, which is not their arithmetic sum 3/10. -/
theorem histogram_sum_not_exact :
    (observeAll (zeroCell AuthorizationDuration.Buckets) [1 / 10, 2 / 10]).sum =
      .fin (1351079888211149 / 4503599627370496) ∧
    (1351079888211149 / 4503599627370496 : ℚ) ≠ ([1 / 10, 2 / 10] : List ℚ).sum ∧
    (observeAll (zeroCell AuthorizationDuration.Buckets) [1 / 10, 2 / 10]).sum ≠
      .fin ([1 / 10, 2 / 10] : List ℚ).sum := by
  have h : (observeAll (zeroCell AuthorizationDuration.Buckets) [1 / 10, 2 / 10]).sum =
      .fin (1351079888211149 / 4503599627370496) := by
    rw [observeAll_zeroCell]
    exact floatSum_tenth_fifth
  refine ⟨h, by norm_num, ?_⟩
  rw [h]
  simp only [ne_eq, F64.fin.injEq]
  norm_num

/-- C6, amended: on a declared histogram family, after any finite sequence of
observations on one series that starts from the zero cell: the buckets are the
declared bounds followed by the sentinel; each bucket's cumulative count is the
number of observed values at most its bound; the counts do not decrease along
the bounds; the sentinel's count is the total count; the total count is the
number of observations; the sum is the float sum of the observed values in
observation order, which, when finite, is within `sumTolerance` of their
arithmetic sum. -/
theorem histogram_observations (f : MetricFamily) (hf : f ∈ declared)
    (hk : f.kind = .histogram) (acc : Accessor) (values : List String)
    (hlen : values.length = f.labels.length) (vs : List ℚ) :
    cellAt (zeroCell f.Buckets) (observeCalls acc f [] values vs) (f.labels.zip values) =
      observeAll (zeroCell f.Buckets) vs ∧
    (observeAll (zeroCell f.Buckets) vs).buckets.map Prod.fst = bucketBounds f.Buckets ∧
    (∀ b ∈ f.Buckets, bucketCount (observeAll (zeroCell f.Buckets) vs) (.finite b) =
      some (vs.countP (fun v => decide (v ≤ b)))) ∧
    ((observeAll (zeroCell f.Buckets) vs).buckets.map Prod.snd).Sorted (· ≤ ·) ∧
    bucketCount (observeAll (zeroCell f.Buckets) vs) .posInf =
      some (observeAll (zeroCell f.Buckets) vs).count ∧
    (observeAll (zeroCell f.Buckets) vs).count = vs.length ∧
    (observeAll (zeroCell f.Buckets) vs).sum = floatSum vs ∧
    (∀ s : ℚ, (observeAll (zeroCell f.Buckets) vs).sum = .fin s →
      |s - vs.sum| ≤ sumTolerance vs.length (vs.map (fun v => |v|)).sum) := by
  have hcell := observeCalls_cell acc f values hlen vs []
  rw [observeAll_zeroCell]
  refine ⟨hcell.trans (observeAll_zeroCell _ _), ?_, ?_, ?_, ?_, rfl, rfl,
    fun s hs => floatSum_tolerance vs s hs⟩
  · simp only [List.map_map]
    exact (List.map_congr_left (fun b _ => rfl)).trans (List.map_id _)
  · intro b hb
    have hmem : UpperBound.finite b ∈ bucketBounds f.Buckets := by
      simp [bucketBounds, hb]
    rw [bucketCount_map _ _ _ _ _ hmem]
    rfl
  · exact counts_sorted f.Buckets (declared_buckets_sorted f hf hk).2 vs
  · have hmem : UpperBound.posInf ∈ bucketBounds f.Buckets := by simp [bucketBounds]
    rw [bucketCount_map _ _ _ _ _ hmem]
    simp [UpperBound.covers]

/-- C6 at the authorization-duration histogram with the observations 0.05, 0.3
and 2.0, and the specification's scenario: bounds 0.1, 0.5, 1.0 with the same
observations give the counts 1, 2, 2, the sentinel count 3 and count 3; the sum
is the float 2.35, 5291729562160333 / 2251799813685248, within the tolerance of
47/20 and not equal to it. -/
theorem histogram_observations_witness :
    AuthorizationDuration ∈ declared ∧
    (observeAll (zeroCell AuthorizationDuration.Buckets) [1 / 20, 3 / 10, 2]).count = 3 ∧
    bucketCount (observeAll (zeroCell AuthorizationDuration.Buckets) [1 / 20, 3 / 10, 2])
      .posInf = some 3 ∧
    bucketCount (observeAll (zeroCell AuthorizationDuration.Buckets) [1 / 20, 3 / 10, 2])
      (.finite (25 / 1000)) = some 0 ∧
    bucketCount (observeAll (zeroCell AuthorizationDuration.Buckets) [1 / 20, 3 / 10, 2])
      (.finite (1 / 10)) = some 1 ∧
    bucketCount (observeAll (zeroCell AuthorizationDuration.Buckets) [1 / 20, 3 / 10, 2])
      (.finite 1) = some 2 ∧
    (observeAll (zeroCell AuthorizationDuration.Buckets) [1 / 20, 3 / 10, 2]).sum =
      .fin (5291729562160333 / 2251799813685248) ∧
    |(5291729562160333 / 2251799813685248 : ℚ) - 47 / 20| ≤ sumTolerance 3 (47 / 20) ∧
    (5291729562160333 / 2251799813685248 : ℚ) - 47 / 20 = 1 / 11258999068426240 ∧
    observeAll (zeroCell [1 / 10, 5 / 10, 1]) [1 / 20, 3 / 10, 2] =
      ⟨[(.finite (1 / 10), 1), (.finite (5 / 10), 2), (.finite 1, 2), (.posInf, 3)],
        .fin (5291729562160333 / 2251799813685248), 3⟩ := by
  have hmem : AuthorizationDuration ∈ declared := by simp [declared]
  obtain ⟨_, _, hb, _, hinf, hcount, hsum, htol⟩ :=
    histogram_observations AuthorizationDuration hmem rfl .WithLabelValues ["opa"] rfl
      [1 / 20, 3 / 10, 2]
  have hs := hsum.trans floatSum_scenario
  refine ⟨hmem, hcount, hinf.trans (by rw [hcount]; rfl), ?_, ?_, ?_, hs, ?_, by norm_num, ?_⟩
  · rw [hb (25 / 1000) (by simp [AuthorizationDuration])]
    norm_num [List.countP_cons]
  · rw [hb (1 / 10) (by simp [AuthorizationDuration])]
    norm_num [List.countP_cons]
  · rw [hb 1 (by simp [AuthorizationDuration])]
    norm_num [List.countP_cons]
  · have h := htol _ hs
    have e1 : ([1 / 20, 3 / 10, 2] : List ℚ).sum = 47 / 20 := by norm_num
    have e2 : (([1 / 20, 3 / 10, 2] : List ℚ).map (fun v => |v|)).sum = 47 / 20 := by
      simp only [List.map_cons, List.map_nil, List.sum_cons, List.sum_nil]
      rw [abs_of_pos (by norm_num), abs_of_pos (by norm_num), abs_of_pos (by norm_num)]
      norm_num
    rw [e1, e2] at h
    exact h
  · rw [observeAll_zeroCell, floatSum_scenario]
    norm_num [bucketBounds, UpperBound.covers, List.countP_cons]

end Metrics
